import Mathlib

/-!
# Verification of the CPU scheduling simulator core

Shallow embedding of the simulation core of `cpu_scheduler_simulator.py`:
the four timeline builders (`simulate_fcfs`, `simulate_sjf_np`,
`simulate_priority_np`, `simulate_rr`), the metrics calculator
(`compute_metrics`) and the dispatch routine (`run_scheduler`), together
with proofs about the timelines and metrics they produce.

Python integers are embedded as `Int`; Python float averages as `Rat`
(the averaged quantities are integers, so the rational value is exact);
raised exceptions as an explicit `Except` error value.  The unbounded
`while` loops of the SJF/Priority and Round Robin builders are embedded
as fuel-indexed recursions; the fuel supplied by the top-level entry
points is proved sufficient (see the termination lemmas below), so the
entry points reproduce the source loops exactly.
-/

set_option autoImplicit false

namespace CpuSched

/-- A process record: `pid`, `arrival`, `burst`, `priority`
(mirrors class `Process` in the source). -/
structure Process where
  pid : String
  arrival : Int
  burst : Int
  priority : Int
deriving DecidableEq

/-- One Gantt-chart block `{"pid": ..., "start": ..., "end": ...}`.
The Python dict key `end` is a Lean keyword, embedded as `stop`. -/
structure Block where
  pid : String
  start : Int
  stop : Int
deriving DecidableEq

/-- The Python exceptions the core can raise, plus `loopLimit`, an
artifact of the fuel embedding of the Round Robin loop (proved
unreachable for positive quanta). -/
inductive PyError where
  /-- `ValueError("Quantum must be > 0")` raised in `simulate_rr`. -/
  | valueErrorQuantum
  /-- `ValueError("Unknown scheduling algorithm.")` raised in `run_scheduler`. -/
  | valueErrorUnknownAlgo
  /-- `TypeError` from evaluating `None <= 0` when `simulate_rr` receives no quantum. -/
  | typeErrorNoneOrder
  /-- `ZeroDivisionError` from averaging over an empty process list. -/
  | zeroDivisionError
  /-- Fuel exhaustion of the embedded Round Robin loop (never returned for quantum > 0). -/
  | loopLimit
deriving DecidableEq

/-- Per-process metrics record `{"CT": ..., "TAT": ..., "WT": ..., "RT": ...}`. -/
structure Metrics where
  CT : Int
  TAT : Int
  WT : Int
  RT : Int
deriving DecidableEq

/-- The summary dict returned by `compute_metrics`. -/
structure Summary where
  avg_wt : Rat
  avg_tat : Rat
  throughput : Rat
  total_time : Int
deriving DecidableEq

/-- Stable insertion of a process into a list sorted by arrival time:
the process goes in front of the first strictly-later element and after
all elements with arrival less than or equal to its own. -/
def insertByArrival (p : Process) : List Process → List Process
  | [] => [p]
  | q :: qs => if p.arrival ≤ q.arrival then p :: q :: qs else q :: insertByArrival p qs

/-- `sorted(processes, key=lambda p: p.arrival)` — a stable sort by
arrival time, embedded as a stable insertion sort. -/
def sortByArrival (l : List Process) : List Process :=
  l.foldr insertByArrival []

/-- `simulate_fcfs`'s loop body over the arrival-sorted process list:
emit an IDLE block when the next process has not yet arrived, then run
it to completion. -/
def fcfsAux : List Process → Int → List Block
  | [], _ => []
  | p :: rest, time =>
    if time < p.arrival then
      ⟨"IDLE", time, p.arrival⟩ :: ⟨p.pid, p.arrival, p.arrival + p.burst⟩ ::
        fcfsAux rest (p.arrival + p.burst)
    else
      ⟨p.pid, time, time + p.burst⟩ :: fcfsAux rest (time + p.burst)

/-- `simulate_fcfs(processes)`: First Come First Serve (non-preemptive). -/
def simulate_fcfs (processes : List Process) : List Block :=
  fcfsAux (sortByArrival processes) 0

/-- Python `min(l, key=key)` on a nonempty list: returns the first
element attaining the minimal key (the fold replaces the current best
only on a strict improvement, exactly as CPython does). -/
def pyMin (key : Process → Int) : List Process → Option Process
  | [] => none
  | x :: xs => some (xs.foldl (fun b a => if key a < key b then a else b) x)

/-- Python `min(l, key=lambda x: (x.priority, x.arrival))`: first element
attaining the lexicographically minimal (priority, arrival) pair. -/
def pyMinPrioArr : List Process → Option Process
  | [] => none
  | x :: xs => some (xs.foldl
      (fun b a =>
        if a.priority < b.priority ∨ (a.priority = b.priority ∧ a.arrival < b.arrival)
        then a else b) x)

/-- Python `l.remove(p)`: drop the first occurrence of `p`. -/
def removeFirst : List Process → Process → List Process
  | [], _ => []
  | x :: xs, p => if x = p then xs else x :: removeFirst xs p

/-- `simulate_sjf_np`'s `while remaining:` loop, fuel-indexed.  One
recursion step performs one dispatch; when no process has yet arrived
the source loop first emits an IDLE block, advances time to the next
arrival and re-enters the loop (`continue`), at which point the ready
list is nonempty (it contains `remaining[0]`), so that idle pass is
fused with the following dispatch here. -/
def sjfAux : Nat → List Process → Int → List Block
  | 0, _, _ => []
  | _fuel + 1, [], _ => []
  | fuel + 1, p0 :: rest, time =>
    let remaining := p0 :: rest
    let ready := remaining.filter (fun p => decide (p.arrival ≤ time))
    let t := if ready.isEmpty then p0.arrival else time
    let idle : List Block := if ready.isEmpty then [⟨"IDLE", time, p0.arrival⟩] else []
    match pyMin (fun x => x.burst) (remaining.filter (fun p => decide (p.arrival ≤ t))) with
    | none => []
    | some p =>
        idle ++ ⟨p.pid, t, t + p.burst⟩ :: sjfAux fuel (removeFirst remaining p) (t + p.burst)

/-- `simulate_sjf_np(processes)`: Shortest Job First (non-preemptive).
The loop dispatches one process per iteration, so `length` fuel
suffices (proved below). -/
def simulate_sjf_np (processes : List Process) : List Block :=
  sjfAux processes.length (sortByArrival processes) 0

/-- `simulate_priority_np`'s `while remaining:` loop, fuel-indexed,
with the same idle-pass fusion as `sjfAux`. -/
def prioAux : Nat → List Process → Int → List Block
  | 0, _, _ => []
  | _fuel + 1, [], _ => []
  | fuel + 1, p0 :: rest, time =>
    let remaining := p0 :: rest
    let ready := remaining.filter (fun p => decide (p.arrival ≤ time))
    let t := if ready.isEmpty then p0.arrival else time
    let idle : List Block := if ready.isEmpty then [⟨"IDLE", time, p0.arrival⟩] else []
    match pyMinPrioArr (remaining.filter (fun p => decide (p.arrival ≤ t))) with
    | none => []
    | some p =>
        idle ++ ⟨p.pid, t, t + p.burst⟩ :: prioAux fuel (removeFirst remaining p) (t + p.burst)

/-- `simulate_priority_np(processes)`: non-preemptive priority scheduling. -/
def simulate_priority_np (processes : List Process) : List Block :=
  prioAux processes.length (sortByArrival processes) 0

/-- `add_arrivals(current_time)` of `simulate_rr`: move every
not-yet-admitted process whose arrival is at most `t` from the pending
(arrival-sorted) suffix onto the back of the ready queue, stopping at
the first later arrival.  Returns the new (ready, pending) pair. -/
def addArrivals (t : Int) : List Process → List Process → List Process × List Process
  | ready, [] => (ready, [])
  | ready, p :: ps =>
    if p.arrival ≤ t then addArrivals t (ready ++ [p]) ps else (ready, p :: ps)

/-- A Python dict built by `{p.pid: f(p) for p in ps}`, as a total
function with the dict's last-wins update semantics (unused keys map
to 0; the simulator never reads such a key). -/
def pidDict (f : Process → Int) (ps : List Process) : String → Int :=
  ps.foldl (fun g p => fun s => if s = p.pid then f p else g s) (fun _ => 0)

/-- `simulate_rr`'s `while ready or idx < len(processes):` loop,
fuel-indexed.  State: the FIFO ready queue, the pending arrival-sorted
suffix, the remaining-burst dict and the current time.  Returns the
blocks the loop appends to `gantt`, or `none` if the fuel runs out
(which `rrFuel` rules out, see the termination lemma). -/
def rrAux (q : Int) : Nat → List Process → List Process → (String → Int) → Int →
    Option (List Block)
  | 0, [], [], _, _ => some []
  | 0, _, _, _, _ => none
  | _fuel + 1, [], [], _, _ => some []
  | fuel + 1, [], p :: ps, rem, time =>
    let nextArrival := p.arrival
    let rp := addArrivals nextArrival [] (p :: ps)
    (rrAux q fuel rp.1 rp.2 rem nextArrival).map
      (fun g => ⟨"IDLE", time, nextArrival⟩ :: g)
  | fuel + 1, p :: rest, pending, rem, time =>
    let runTime := min q (rem p.pid)
    let stop := time + runTime
    let rem' : String → Int := fun s => if s = p.pid then rem s - runTime else rem s
    let rp := addArrivals stop rest pending
    let ready' := if 0 < rem' p.pid then rp.1 ++ [p] else rp.1
    (rrAux q fuel ready' rp.2 rem' stop).map (fun g => ⟨p.pid, time, stop⟩ :: g)

/-- Loop measure for the Round Robin loop:
`2·(total clamped remaining burst over the queue) + 2·|pending| + |ready|`.
Every loop iteration strictly decreases it (for a positive quantum). -/
def rrMeasure (ready pending : List Process) (rem : String → Int) : Nat :=
  2 * ((ready ++ pending).map (fun p => (rem p.pid).toNat)).sum
    + 2 * pending.length + ready.length

/-- Fuel budget for `rrAux`: a strict upper bound on the loop measure. -/
def rrFuel (ready pending : List Process) (rem : String → Int) : Nat :=
  rrMeasure ready pending rem + 1

/-- `simulate_rr(processes, quantum)`: Round Robin.  An absent quantum
(`None`) raises a `TypeError` at the `quantum <= 0` comparison; a
non-positive quantum raises `ValueError("Quantum must be > 0")`. -/
def simulate_rr (processes : List Process) (quantum : Option Int) :
    Except PyError (List Block) :=
  match quantum with
  | none => .error .typeErrorNoneOrder
  | some q =>
    if q ≤ 0 then .error .valueErrorQuantum
    else
      let ps := sortByArrival processes
      let rem := pidDict (fun p => p.burst) ps
      let rp := addArrivals 0 [] ps
      match rrAux q (rrFuel rp.1 rp.2 rem) rp.1 rp.2 rem 0 with
      | some g => .ok g
      | none => .error .loopLimit

/-- Completion dict of `compute_metrics`: `completion[pid]` starts at 0
and is raised to the max end over the non-IDLE blocks owned by `pid`. -/
def completionOf (pid : String) (gantt : List Block) : Int :=
  gantt.foldl (fun acc b => if b.pid ≠ "IDLE" ∧ b.pid = pid then max acc b.stop else acc) 0

/-- First-start dict of `compute_metrics`: the minimal start over the
non-IDLE blocks owned by `pid`, or `none` if there is no such block. -/
def firstStartOf (pid : String) (gantt : List Block) : Option Int :=
  gantt.foldl
    (fun acc b =>
      if b.pid ≠ "IDLE" ∧ b.pid = pid then
        match acc with
        | none => some b.start
        | some s => some (min s b.start)
      else acc) none

/-- The per-process record `compute_metrics` builds for one pid. -/
def metricsFor (arrival burst : String → Int) (gantt : List Block) (pid : String) :
    Metrics :=
  let ct := completionOf pid gantt
  let tat := ct - arrival pid
  let wt := tat - burst pid
  let rt := match firstStartOf pid gantt with
    | some s => s - arrival pid
    | none => 0
  ⟨ct, tat, wt, rt⟩

/-- `compute_metrics(processes, gantt)`: per-process metrics (in process
order, keyed by pid) plus the summary.  With an empty process list the
averaging step divides by `len(pids) = 0` and raises `ZeroDivisionError`. -/
def compute_metrics (processes : List Process) (gantt : List Block) :
    Except PyError (List (String × Metrics) × Summary) :=
  let pids := processes.map (fun p => p.pid)
  let arrival := pidDict (fun p => p.arrival) processes
  let burst := pidDict (fun p => p.burst) processes
  let metrics := pids.map (fun pid => (pid, metricsFor arrival burst gantt pid))
  let totalWt := (pids.map (fun pid => (metricsFor arrival burst gantt pid).WT)).sum
  let totalTat := (pids.map (fun pid => (metricsFor arrival burst gantt pid).TAT)).sum
  let totalTime : Int := match gantt.getLast? with
    | some b => b.stop
    | none => 0
  if pids.length = 0 then .error .zeroDivisionError
  else
    .ok (metrics,
      { avg_wt := (totalWt : Rat) / (pids.length : Rat)
        avg_tat := (totalTat : Rat) / (pids.length : Rat)
        throughput := if totalTime ≠ 0 then (pids.length : Rat) / (totalTime : Rat) else 0
        total_time := totalTime })

/-- `run_scheduler(processes, algo, quantum)`: route the discipline name
to its builder, then compute metrics on the result. -/
def run_scheduler (processes : List Process) (algo : String) (quantum : Option Int) :
    Except PyError (List Block × List (String × Metrics) × Summary) :=
  let build : Except PyError (List Block) :=
    if algo = "FCFS" then .ok (simulate_fcfs processes)
    else if algo = "SJF" then .ok (simulate_sjf_np processes)
    else if algo = "Priority" then .ok (simulate_priority_np processes)
    else if algo = "Round Robin" then simulate_rr processes quantum
    else .error .valueErrorUnknownAlgo
  match build with
  | .error e => .error e
  | .ok gantt =>
    match compute_metrics processes gantt with
    | .error e => .error e
    | .ok ms => .ok (gantt, ms.1, ms.2)

/-! ## Specification predicates -/

/-- Valid process set: arrivals nonnegative, bursts positive, no process
named after the reserved `"IDLE"` sentinel, and pids unique within the
run (the data model requires identifiers unique within a run and
reserves `"IDLE"` as the idle-interval marker). -/
def ValidProcs (ps : List Process) : Prop :=
  (∀ p ∈ ps, 0 ≤ p.arrival ∧ 0 < p.burst ∧ p.pid ≠ "IDLE") ∧
    (ps.map Process.pid).Nodup

/-- Makespan: the end tick of the last interval, 0 for an empty Timeline. -/
def makespan (g : List Block) : Int :=
  match g.getLast? with
  | some b => b.stop
  | none => 0

/-- The Timeline is a contiguous chain of positive-width blocks starting
at tick `t`: each block starts where its predecessor ended. -/
def Chained : Int → List Block → Prop
  | _, [] => True
  | t, b :: rest => b.start = t ∧ b.start < b.stop ∧ Chained b.stop rest

/-- The gap-freeness contract of a Timeline: non-decreasing start order,
adjacent intervals meet exactly, no two intervals overlap, every
interval has positive width, and every tick of `[0, makespan)` is
covered by some interval. -/
def GapFree (g : List Block) : Prop :=
  List.Pairwise (fun a b => a.start ≤ b.start) g ∧
    (∀ l1 b1 b2 l2, g = l1 ++ b1 :: b2 :: l2 → b1.stop = b2.start) ∧
    List.Pairwise (fun a b => a.stop ≤ b.start) g ∧
    (∀ b ∈ g, b.start < b.stop) ∧
    (∀ t : Int, 0 ≤ t → t < makespan g → ∃ b ∈ g, b.start ≤ t ∧ t < b.stop)

/-- The non-IDLE intervals owned by `pid`. -/
def ownedBlocks (pid : String) (g : List Block) : List Block :=
  g.filter (fun b => decide (b.pid ≠ "IDLE" ∧ b.pid = pid))

/-- Total width of the non-IDLE intervals owned by `pid`. -/
def ownedWidth (pid : String) (g : List Block) : Int :=
  ((ownedBlocks pid g).map (fun b => b.stop - b.start)).sum

/-- Total burst of the processes of `l` carrying identifier `pid`. -/
def burstSum (pid : String) (l : List Process) : Int :=
  ((l.filter (fun p => decide (p.pid = pid))).map (fun p => p.burst)).sum

/-! ## Chained timelines are gap-free -/

theorem makespan_nil : makespan [] = 0 := rfl

theorem makespan_singleton (b : Block) : makespan [b] = b.stop := rfl

theorem makespan_cons_cons (a b : Block) (l : List Block) :
    makespan (a :: b :: l) = makespan (b :: l) := by
  simp [makespan, List.getLast?_cons_cons]

theorem chained_mem {t : Int} {g : List Block} (h : Chained t g) :
    ∀ b ∈ g, t ≤ b.start ∧ b.start < b.stop := by
  induction g generalizing t with
  | nil => intro b hb; cases hb
  | cons a rest ih =>
    obtain ⟨h1, h2, h3⟩ := h
    intro b hb
    rcases List.mem_cons.mp hb with rfl | hb
    · exact ⟨le_of_eq h1.symm, h2⟩
    · obtain ⟨hb1, hb2⟩ := ih h3 b hb
      exact ⟨le_trans (le_of_eq h1.symm) (le_trans (le_of_lt h2) hb1), hb2⟩

theorem chained_pairwise_stop {t : Int} {g : List Block} (h : Chained t g) :
    List.Pairwise (fun a b => a.stop ≤ b.start) g := by
  induction g generalizing t with
  | nil => exact List.Pairwise.nil
  | cons a rest ih =>
    obtain ⟨_, _, h3⟩ := h
    exact List.Pairwise.cons (fun b hb => (chained_mem h3 b hb).1) (ih h3)

theorem chained_pairwise_start {t : Int} {g : List Block} (h : Chained t g) :
    List.Pairwise (fun a b => a.start ≤ b.start) g := by
  induction g generalizing t with
  | nil => exact List.Pairwise.nil
  | cons a rest ih =>
    obtain ⟨_, h2, h3⟩ := h
    exact List.Pairwise.cons
      (fun b hb => le_of_lt (lt_of_lt_of_le h2 (chained_mem h3 b hb).1)) (ih h3)

theorem chained_adjacent {t : Int} {g : List Block} (h : Chained t g) :
    ∀ l1 b1 b2 l2, g = l1 ++ b1 :: b2 :: l2 → b1.stop = b2.start := by
  induction g generalizing t with
  | nil =>
    intro l1 b1 b2 l2 heq
    exact absurd heq (by simp)
  | cons a rest ih =>
    intro l1 b1 b2 l2 heq
    cases l1 with
    | nil =>
      simp only [List.nil_append, List.cons.injEq] at heq
      obtain ⟨rfl, rfl⟩ := heq
      exact (h.2.2.1).symm
    | cons x xs =>
      simp only [List.cons_append, List.cons.injEq] at heq
      exact ih h.2.2 xs b1 b2 l2 heq.2

theorem chained_cover {t : Int} {g : List Block} (h : Chained t g) (ht : 0 ≤ t) :
    ∀ x : Int, t ≤ x → x < makespan g → ∃ b ∈ g, b.start ≤ x ∧ x < b.stop := by
  induction g generalizing t with
  | nil =>
    intro x hx hlt
    rw [makespan_nil] at hlt
    omega
  | cons a rest ih =>
    intro x hx hlt
    obtain ⟨h1, h2, h3⟩ := h
    by_cases hxa : x < a.stop
    · exact ⟨a, List.mem_cons_self a rest, by omega, hxa⟩
    · cases rest with
      | nil =>
        rw [makespan_singleton] at hlt
        omega
      | cons c cs =>
        rw [makespan_cons_cons] at hlt
        obtain ⟨b, hb, hb1, hb2⟩ := ih h3 (by omega) x (by omega) hlt
        exact ⟨b, List.mem_cons_of_mem a hb, hb1, hb2⟩

theorem chained_gapFree {g : List Block} (h : Chained 0 g) : GapFree g :=
  ⟨chained_pairwise_start h, chained_adjacent h, chained_pairwise_stop h,
    fun b hb => (chained_mem h b hb).2,
    fun t ht hlt => chained_cover h le_rfl t ht hlt⟩

theorem chained_makespan {t : Int} {g : List Block} (h : Chained t g) (hg : g ≠ []) :
    makespan g = t + (g.map (fun b => b.stop - b.start)).sum := by
  induction g generalizing t with
  | nil => exact absurd rfl hg
  | cons a rest ih =>
    obtain ⟨h1, h2, h3⟩ := h
    cases rest with
    | nil => simp [makespan_singleton]; omega
    | cons c cs =>
      rw [makespan_cons_cons, ih h3 (by simp)]
      simp only [List.map_cons, List.sum_cons]
      omega

theorem chained_stop_le_makespan {t : Int} {g : List Block} (h : Chained t g) :
    ∀ b ∈ g, b.stop ≤ makespan g := by
  induction g generalizing t with
  | nil => intro b hb; cases hb
  | cons a rest ih =>
    intro b hb
    rcases List.mem_cons.mp hb with rfl | hb
    · cases rest with
      | nil => rw [makespan_singleton]
      | cons c cs =>
        rw [makespan_cons_cons]
        rw [chained_makespan h.2.2 (by simp)]
        have : (0:Int) ≤ ((c :: cs).map (fun b => b.stop - b.start)).sum := by
          apply List.sum_nonneg
          intro x hx
          simp only [List.mem_map] at hx
          obtain ⟨bb, hbb, rfl⟩ := hx
          have := (chained_mem h.2.2 bb hbb).2
          omega
        omega
    · cases rest with
      | nil => cases hb
      | cons c cs =>
        rw [makespan_cons_cons]
        exact ih h.2.2 b hb

theorem makespan_mem_stop {g : List Block} (hg : g ≠ []) :
    ∃ b ∈ g, b.stop = makespan g := by
  refine ⟨g.getLast hg, List.getLast_mem hg, ?_⟩
  rw [makespan, List.getLast?_eq_getLast g hg]

/-! ## Basic lemmas about the helper functions -/

theorem insertByArrival_perm (p : Process) (l : List Process) :
    (insertByArrival p l).Perm (p :: l) := by
  induction l with
  | nil => exact List.Perm.refl _
  | cons q qs ih =>
    rw [insertByArrival]
    split
    · exact List.Perm.refl _
    · exact List.Perm.trans (List.Perm.cons q ih) (List.Perm.swap p q qs)

theorem sortByArrival_perm (l : List Process) : (sortByArrival l).Perm l := by
  induction l with
  | nil => exact List.Perm.refl _
  | cons x xs ih =>
    exact List.Perm.trans (insertByArrival_perm x (sortByArrival xs)) (List.Perm.cons x ih)

theorem mem_sortByArrival {a : Process} {l : List Process} :
    a ∈ sortByArrival l ↔ a ∈ l :=
  (sortByArrival_perm l).mem_iff

theorem sortByArrival_map_pid_nodup {l : List Process}
    (h : (l.map Process.pid).Nodup) : ((sortByArrival l).map Process.pid).Nodup :=
  (((sortByArrival_perm l).map Process.pid).nodup_iff).mpr h

theorem removeFirst_length {p : Process} : ∀ {l : List Process}, p ∈ l →
    (removeFirst l p).length + 1 = l.length := by
  intro l
  induction l with
  | nil => intro h; cases h
  | cons x xs ih =>
    intro h
    rw [removeFirst]
    split
    · simp
    · next hne =>
      have : p ∈ xs := by
        rcases List.mem_cons.mp h with rfl | hm
        · exact absurd rfl hne
        · exact hm
      simp [ih this]

theorem removeFirst_subset {p x : Process} : ∀ {l : List Process},
    x ∈ removeFirst l p → x ∈ l := by
  intro l
  induction l with
  | nil => intro h; cases h
  | cons y ys ih =>
    intro h
    rw [removeFirst] at h
    split at h
    · exact List.mem_cons_of_mem y h
    · rcases List.mem_cons.mp h with rfl | hm
      · exact List.mem_cons_self _ _
      · exact List.mem_cons_of_mem y (ih hm)

theorem removeFirst_perm {p : Process} : ∀ {l : List Process}, p ∈ l →
    l.Perm (p :: removeFirst l p) := by
  intro l
  induction l with
  | nil => intro h; cases h
  | cons x xs ih =>
    intro h
    rw [removeFirst]
    split
    · next heq => rw [heq]
    · next hne =>
      have hm : p ∈ xs := by
        rcases List.mem_cons.mp h with rfl | hm
        · exact absurd rfl hne
        · exact hm
      exact List.Perm.trans (List.Perm.cons x (ih hm)) (List.Perm.swap p x _)

theorem burstSum_perm {pid : String} {l1 l2 : List Process} (h : l1.Perm l2) :
    burstSum pid l1 = burstSum pid l2 :=
  List.Perm.sum_eq (List.Perm.map _ (List.Perm.filter _ h))

theorem burstSum_cons (pid : String) (p : Process) (l : List Process) :
    burstSum pid (p :: l) =
      (if p.pid = pid then p.burst else 0) + burstSum pid l := by
  rw [burstSum, List.filter_cons]
  split
  · next hcond =>
    simp only [decide_eq_true_eq] at hcond
    simp [burstSum, hcond]
  · next hcond =>
    simp only [decide_eq_true_eq] at hcond
    simp [burstSum, hcond]

theorem burstSum_removeFirst {pid : String} {p : Process} {l : List Process}
    (h : p ∈ l) :
    burstSum pid l = (if p.pid = pid then p.burst else 0) + burstSum pid (removeFirst l p) := by
  rw [burstSum_perm (removeFirst_perm h), burstSum_cons]

/-- A process with a pid that occurs only once in `l` is the unique
element of the corresponding filter. -/
theorem filter_pid_eq_singleton {p : Process} : ∀ {l : List Process}, p ∈ l →
    (l.map Process.pid).Nodup →
    l.filter (fun q => decide (q.pid = p.pid)) = [p] := by
  intro l
  induction l with
  | nil => intro h; cases h
  | cons x xs ih =>
    intro h hnd
    simp only [List.map_cons, List.nodup_cons] at hnd
    rcases List.mem_cons.mp h with rfl | hm
    · rw [List.filter_cons_of_pos (by simp)]
      have : xs.filter (fun q => decide (q.pid = p.pid)) = [] := by
        rw [List.filter_eq_nil_iff]
        intro q hq
        simp only [decide_eq_true_eq]
        intro hpid
        exact hnd.1 (hpid ▸ List.mem_map_of_mem Process.pid hq)
      rw [this]
    · have hx : x.pid ≠ p.pid := by
        intro hpid
        exact hnd.1 (hpid ▸ List.mem_map_of_mem Process.pid hm)
      rw [List.filter_cons_of_neg (by simpa using hx)]
      exact ih hm hnd.2

theorem burstSum_eq_burst {p : Process} {l : List Process} (h : p ∈ l)
    (hnd : (l.map Process.pid).Nodup) : burstSum p.pid l = p.burst := by
  rw [burstSum, filter_pid_eq_singleton h hnd]
  simp

/-- The generic shape of Python's `min` fold: each step keeps one of the
two candidates. -/
theorem foldl_choice_mem (step : Process → Process → Process)
    (hstep : ∀ b a, step b a = a ∨ step b a = b) :
    ∀ (xs : List Process) (best : Process), xs.foldl step best ∈ best :: xs := by
  intro xs
  induction xs with
  | nil => intro best; exact List.mem_cons_self _ _
  | cons a rest ih =>
    intro best
    rw [List.foldl_cons]
    rcases hstep best a with h | h <;> rw [h]
    · exact List.mem_cons_of_mem _ (ih a)
    · rcases List.mem_cons.mp (ih best) with h' | h'
      · rw [h']
        exact List.mem_cons_self _ _
      · exact List.mem_cons_of_mem _ (List.mem_cons_of_mem _ h')

theorem pyMin_mem {key : Process → Int} {l : List Process} {p : Process}
    (h : pyMin key l = some p) : p ∈ l := by
  cases l with
  | nil => cases h
  | cons x xs =>
    rw [pyMin] at h
    have hmem := foldl_choice_mem (fun b a => if key a < key b then a else b)
      (fun b a => by dsimp only; split <;> simp) xs x
    rw [Option.some.injEq] at h
    rw [h] at hmem
    exact hmem

theorem pyMinPrioArr_mem {l : List Process} {p : Process}
    (h : pyMinPrioArr l = some p) : p ∈ l := by
  cases l with
  | nil => cases h
  | cons x xs =>
    rw [pyMinPrioArr] at h
    have hmem := foldl_choice_mem
      (fun b a =>
        if a.priority < b.priority ∨ (a.priority = b.priority ∧ a.arrival < b.arrival)
        then a else b)
      (fun b a => by
        show (if a.priority < b.priority ∨ (a.priority = b.priority ∧ a.arrival < b.arrival)
            then a else b) = a ∨
          (if a.priority < b.priority ∨ (a.priority = b.priority ∧ a.arrival < b.arrival)
            then a else b) = b
        split <;> simp) xs x
    rw [Option.some.injEq] at h
    rw [h] at hmem
    exact hmem

theorem pyMin_isSome {key : Process → Int} {l : List Process} (h : l ≠ []) :
    ∃ p, pyMin key l = some p := by
  cases l with
  | nil => exact absurd rfl h
  | cons x xs => exact ⟨_, rfl⟩

theorem pyMinPrioArr_isSome {l : List Process} (h : l ≠ []) :
    ∃ p, pyMinPrioArr l = some p := by
  cases l with
  | nil => exact absurd rfl h
  | cons x xs => exact ⟨_, rfl⟩

/-- First-minimum characterization of Python's `min` fold: the result
attains the minimal key over the initial candidate and the list, and
every element strictly before the result has a strictly larger key. -/
theorem pyMinFold_spec (key : Process → Int) :
    ∀ (xs : List Process) (best : Process),
      ∃ r, xs.foldl (fun b a => if key a < key b then a else b) best = r ∧
        (∀ x ∈ best :: xs, key r ≤ key x) ∧
        (r = best ∨
          (key r < key best ∧
            ∃ pre post, xs = pre ++ r :: post ∧ ∀ y ∈ pre, key r < key y)) := by
  intro xs
  induction xs with
  | nil =>
    intro best
    refine ⟨best, rfl, ?_, Or.inl rfl⟩
    intro x hx
    rcases List.mem_cons.mp hx with rfl | hx
    · exact le_rfl
    · cases hx
  | cons a rest ih =>
    intro best
    rw [List.foldl_cons]
    by_cases hab : key a < key best
    · rw [if_pos hab]
      obtain ⟨r, hr, ih1, ih2⟩ := ih a
      refine ⟨r, hr, ?_, ?_⟩
      · intro x hx
        rcases List.mem_cons.mp hx with rfl | hx
        · exact le_trans (ih1 a (List.mem_cons_self _ _)) (le_of_lt hab)
        · exact ih1 x hx
      · rcases ih2 with rfl | ⟨hlt, pre, post, hsplit, hpre⟩
        · exact Or.inr ⟨hab, [], rest, rfl, fun y hy => absurd hy (List.not_mem_nil y)⟩
        · refine Or.inr ⟨lt_trans hlt hab, a :: pre, post, by rw [hsplit, List.cons_append], ?_⟩
          intro y hy
          rcases List.mem_cons.mp hy with rfl | hy
          · exact hlt
          · exact hpre y hy
    · rw [if_neg hab]
      obtain ⟨r, hr, ih1, ih2⟩ := ih best
      refine ⟨r, hr, ?_, ?_⟩
      · intro x hx
        rcases List.mem_cons.mp hx with rfl | hx
        · exact ih1 x (List.mem_cons_self _ _)
        · rcases List.mem_cons.mp hx with rfl | hx
          · exact le_trans (ih1 best (List.mem_cons_self _ _)) (le_of_not_lt hab)
          · exact ih1 x (List.mem_cons_of_mem _ hx)
      · rcases ih2 with rfl | ⟨hlt, pre, post, hsplit, hpre⟩
        · exact Or.inl rfl
        · refine Or.inr ⟨hlt, a :: pre, post, by rw [hsplit, List.cons_append], ?_⟩
          intro y hy
          rcases List.mem_cons.mp hy with rfl | hy
          · exact lt_of_lt_of_le hlt (le_of_not_lt hab)
          · exact hpre y hy

/-- Python `min(l, key=key)` selects an element with minimal key, and
among equal keys the earliest one: every element listed before the
selected one has a strictly larger key. -/
theorem pyMin_spec {key : Process → Int} {l : List Process} {p : Process}
    (h : pyMin key l = some p) :
    p ∈ l ∧ (∀ x ∈ l, key p ≤ key x) ∧
      ∃ pre post, l = pre ++ p :: post ∧ ∀ y ∈ pre, key p < key y := by
  cases l with
  | nil => cases h
  | cons x xs =>
    rw [pyMin, Option.some.injEq] at h
    obtain ⟨r, hr, h1, h2⟩ := pyMinFold_spec key xs x
    rw [hr] at h
    subst h
    refine ⟨pyMin_mem (by rw [pyMin, hr]), ?_, ?_⟩
    · intro z hz
      rcases List.mem_cons.mp hz with rfl | hz
      · exact h1 z (List.mem_cons_self _ _)
      · exact h1 z (List.mem_cons_of_mem _ hz)
    · rcases h2 with rfl | ⟨hlt, pre, post, hsplit, hpre⟩
      · exact ⟨[], xs, rfl, fun y hy => absurd hy (List.not_mem_nil y)⟩
      · refine ⟨x :: pre, post, by rw [hsplit, List.cons_append], ?_⟩
        intro y hy
        rcases List.mem_cons.mp hy with rfl | hy
        · exact hlt
        · exact hpre y hy

/-- Evaluating the fold underlying `pidDict` at a pid not bound by the
dict leaves the initial function untouched. -/
theorem pidFold_not_mem (f : Process → Int) :
    ∀ (ps : List Process) (g : String → Int) (s : String), s ∉ ps.map Process.pid →
      ps.foldl (fun g p => fun s => if s = p.pid then f p else g s) g s = g s := by
  intro ps
  induction ps with
  | nil => intro g s _; rfl
  | cons p rest ih =>
    intro g s hs
    simp only [List.map_cons, List.mem_cons, not_or] at hs
    rw [List.foldl_cons, ih _ s hs.2]
    rw [if_neg hs.1]

theorem pidFold_eq (f : Process → Int) :
    ∀ (ps : List Process) (g : String → Int) (x : Process), x ∈ ps →
      (ps.map Process.pid).Nodup →
      ps.foldl (fun g p => fun s => if s = p.pid then f p else g s) g x.pid = f x := by
  intro ps
  induction ps with
  | nil => intro g x hx; cases hx
  | cons p rest ih =>
    intro g x hx hnd
    simp only [List.map_cons, List.nodup_cons] at hnd
    rw [List.foldl_cons]
    rcases List.mem_cons.mp hx with rfl | hx
    · rw [pidFold_not_mem f rest _ x.pid hnd.1]
      simp
    · exact ih _ x hx hnd.2

theorem pidDict_eq {f : Process → Int} {ps : List Process} {x : Process}
    (hx : x ∈ ps) (hnd : (ps.map Process.pid).Nodup) : pidDict f ps x.pid = f x :=
  pidFold_eq f ps _ x hx hnd

/-- Decomposition of `add_arrivals`: it moves the maximal already-arrived
prefix of the pending list to the back of the ready queue, and the head
of the leftover pending list (when any) has not yet arrived. -/
theorem addArrivals_spec (t : Int) :
    ∀ (pending ready : List Process), ∃ taken rest,
      addArrivals t ready pending = (ready ++ taken, rest) ∧
      pending = taken ++ rest ∧ (∀ x ∈ taken, x.arrival ≤ t) ∧
      (∀ y l', rest = y :: l' → t < y.arrival) := by
  intro pending
  induction pending with
  | nil =>
    intro ready
    exact ⟨[], [], by simp [addArrivals], rfl, fun x hx => absurd hx (List.not_mem_nil x),
      fun y l' h => by cases h⟩
  | cons p ps ih =>
    intro ready
    by_cases hp : p.arrival ≤ t
    · obtain ⟨taken, rest, h1, h2, h3, h4⟩ := ih (ready ++ [p])
      refine ⟨p :: taken, rest, ?_, by simp [h2], ?_, h4⟩
      · rw [addArrivals, if_pos hp, h1]
        simp
      · intro x hx
        rcases List.mem_cons.mp hx with rfl | hx
        · exact hp
        · exact h3 x hx
    · refine ⟨[], p :: ps, ?_, by simp, fun x hx => absurd hx (List.not_mem_nil x), ?_⟩
      · rw [addArrivals, if_neg hp]
        simp
      · intro y l' h
        rw [List.cons.injEq] at h
        exact h.1 ▸ lt_of_not_le hp

theorem pyMin_none_iff {key : Process → Int} {l : List Process} :
    pyMin key l = none ↔ l = [] := by
  cases l <;> simp [pyMin]

theorem pyMinPrioArr_none_iff {l : List Process} :
    pyMinPrioArr l = none ↔ l = [] := by
  cases l <;> simp [pyMinPrioArr]

theorem ownedWidth_nil (pid : String) : ownedWidth pid [] = 0 := rfl

theorem ownedWidth_cons (pid : String) (b : Block) (g : List Block) :
    ownedWidth pid (b :: g) =
      (if b.pid ≠ "IDLE" ∧ b.pid = pid then b.stop - b.start else 0) + ownedWidth pid g := by
  rw [ownedWidth, ownedBlocks, List.filter_cons]
  split
  · next hcond =>
    simp only [decide_eq_true_eq] at hcond
    rw [if_pos hcond]
    simp [ownedWidth, ownedBlocks]
  · next hcond =>
    simp only [decide_eq_true_eq] at hcond
    rw [if_neg hcond]
    simp [ownedWidth, ownedBlocks]

theorem ownedWidth_append (pid : String) (g1 g2 : List Block) :
    ownedWidth pid (g1 ++ g2) = ownedWidth pid g1 + ownedWidth pid g2 := by
  simp [ownedWidth, ownedBlocks, List.filter_append]

/-! ## FCFS -/

theorem fcfsAux_chained : ∀ (l : List Process) (time : Int),
    (∀ p ∈ l, 0 < p.burst) → Chained time (fcfsAux l time) := by
  intro l
  induction l with
  | nil => intro time _; trivial
  | cons p rest ih =>
    intro time h
    have hpb : 0 < p.burst := (h p (List.mem_cons_self _ _))
    have hrest : ∀ q ∈ rest, 0 < q.burst := fun q hq => h q (List.mem_cons_of_mem _ hq)
    rw [fcfsAux]
    split
    · next hlt =>
      exact ⟨rfl, hlt, rfl, show p.arrival < p.arrival + p.burst by omega, ih _ hrest⟩
    · exact ⟨rfl, show time < time + p.burst by omega, ih _ hrest⟩

theorem fcfsAux_width {pid : String} (hpid : pid ≠ "IDLE") :
    ∀ (l : List Process) (time : Int), ownedWidth pid (fcfsAux l time) = burstSum pid l := by
  intro l
  induction l with
  | nil => intro time; rfl
  | cons p rest ih =>
    intro time
    rw [fcfsAux]
    split
    · rw [ownedWidth_cons, ownedWidth_cons, ih, burstSum_cons]
      by_cases hp : p.pid = pid
      · simp [hp, hpid]
      · simp [hp]
    · rw [ownedWidth_cons, ih, burstSum_cons]
      by_cases hp : p.pid = pid
      · simp [hp, hpid]
      · simp [hp]

/-! ## SJF (non-preemptive) -/

theorem sjfAux_chained : ∀ (fuel : Nat) (l : List Process) (time : Int),
    (∀ p ∈ l, 0 < p.burst) → Chained time (sjfAux fuel l time) := by
  intro fuel
  induction fuel with
  | zero => intro l time _; trivial
  | succ fuel ih =>
    intro l time h
    cases l with
    | nil => trivial
    | cons p0 rest =>
      rw [sjfAux]
      by_cases hready : ((p0 :: rest).filter (fun p => decide (p.arrival ≤ time))).isEmpty
      · have h0 : ¬ (p0.arrival ≤ time) := by
          rw [List.isEmpty_iff] at hready
          have := List.filter_eq_nil_iff.mp hready p0 (List.mem_cons_self _ _)
          simpa using this
        rw [if_pos hready, if_pos hready]
        rcases hpm : pyMin (fun x => x.burst)
            ((p0 :: rest).filter (fun p => decide (p.arrival ≤ p0.arrival))) with _ | p
        · trivial
        · have hmem := pyMin_mem hpm
          have hpmem : p ∈ p0 :: rest := List.mem_of_mem_filter hmem
          have harr : p.arrival ≤ p0.arrival := by
            have := List.of_mem_filter hmem
            simpa using this
          have hpb : 0 < p.burst := h p hpmem
          refine ⟨rfl, show time < p0.arrival by omega,
            rfl, show p0.arrival < p0.arrival + p.burst by omega, ?_⟩
          exact ih _ _ (fun q hq => h q (removeFirst_subset hq))
      · rw [if_neg hready, if_neg hready]
        rcases hpm : pyMin (fun x => x.burst)
            ((p0 :: rest).filter (fun p => decide (p.arrival ≤ time))) with _ | p
        · trivial
        · have hmem := pyMin_mem hpm
          have hpmem : p ∈ p0 :: rest := List.mem_of_mem_filter hmem
          have hpb : 0 < p.burst := h p hpmem
          refine ⟨rfl, show time < time + p.burst by omega, ?_⟩
          exact ih _ _ (fun q hq => h q (removeFirst_subset hq))

theorem sjfAux_width {pid : String} (hpid : pid ≠ "IDLE") :
    ∀ (fuel : Nat) (l : List Process) (time : Int), l.length ≤ fuel →
      ownedWidth pid (sjfAux fuel l time) = burstSum pid l := by
  intro fuel
  induction fuel with
  | zero =>
    intro l time hlen
    rw [Nat.le_zero, List.length_eq_zero] at hlen
    subst hlen
    rfl
  | succ fuel ih =>
    intro l time hlen
    cases l with
    | nil => rfl
    | cons p0 rest =>
      rw [sjfAux]
      by_cases hready : ((p0 :: rest).filter (fun p => decide (p.arrival ≤ time))).isEmpty
      · rw [if_pos hready, if_pos hready]
        rcases hpm : pyMin (fun x => x.burst)
            ((p0 :: rest).filter (fun p => decide (p.arrival ≤ p0.arrival))) with _ | p
        · exfalso
          rw [pyMin_none_iff] at hpm
          have : p0 ∈ (p0 :: rest).filter (fun p => decide (p.arrival ≤ p0.arrival)) :=
            List.mem_filter.mpr ⟨List.mem_cons_self _ _, by simp⟩
          rw [hpm] at this
          cases this
        · have hmem := pyMin_mem hpm
          have hpmem : p ∈ p0 :: rest := List.mem_of_mem_filter hmem
          dsimp only
          rw [List.singleton_append, ownedWidth_cons, ownedWidth_cons]
          rw [ih _ _ (by
            have h1 := removeFirst_length hpmem
            simp only [List.length_cons] at h1 hlen
            omega)]
          rw [burstSum_removeFirst hpmem]
          by_cases hp : p.pid = pid
          · simp [hp, hpid]
          · simp [hp]
      · rw [if_neg hready, if_neg hready]
        rcases hpm : pyMin (fun x => x.burst)
            ((p0 :: rest).filter (fun p => decide (p.arrival ≤ time))) with _ | p
        · exfalso
          rw [pyMin_none_iff] at hpm
          rw [List.isEmpty_iff] at hready
          exact hready hpm
        · have hmem := pyMin_mem hpm
          have hpmem : p ∈ p0 :: rest := List.mem_of_mem_filter hmem
          dsimp only
          rw [List.nil_append, ownedWidth_cons]
          rw [ih _ _ (by
            have h1 := removeFirst_length hpmem
            simp only [List.length_cons] at h1 hlen
            omega)]
          rw [burstSum_removeFirst hpmem]
          by_cases hp : p.pid = pid
          · simp [hp, hpid]
          · simp [hp]

/-! ## Priority (non-preemptive) -/

theorem prioAux_chained : ∀ (fuel : Nat) (l : List Process) (time : Int),
    (∀ p ∈ l, 0 < p.burst) → Chained time (prioAux fuel l time) := by
  intro fuel
  induction fuel with
  | zero => intro l time _; trivial
  | succ fuel ih =>
    intro l time h
    cases l with
    | nil => trivial
    | cons p0 rest =>
      rw [prioAux]
      by_cases hready : ((p0 :: rest).filter (fun p => decide (p.arrival ≤ time))).isEmpty
      · have h0 : ¬ (p0.arrival ≤ time) := by
          rw [List.isEmpty_iff] at hready
          have := List.filter_eq_nil_iff.mp hready p0 (List.mem_cons_self _ _)
          simpa using this
        rw [if_pos hready, if_pos hready]
        rcases hpm : pyMinPrioArr
            ((p0 :: rest).filter (fun p => decide (p.arrival ≤ p0.arrival))) with _ | p
        · trivial
        · have hmem := pyMinPrioArr_mem hpm
          have hpmem : p ∈ p0 :: rest := List.mem_of_mem_filter hmem
          have hpb : 0 < p.burst := h p hpmem
          refine ⟨rfl, show time < p0.arrival by omega,
            rfl, show p0.arrival < p0.arrival + p.burst by omega, ?_⟩
          exact ih _ _ (fun q hq => h q (removeFirst_subset hq))
      · rw [if_neg hready, if_neg hready]
        rcases hpm : pyMinPrioArr
            ((p0 :: rest).filter (fun p => decide (p.arrival ≤ time))) with _ | p
        · trivial
        · have hmem := pyMinPrioArr_mem hpm
          have hpmem : p ∈ p0 :: rest := List.mem_of_mem_filter hmem
          have hpb : 0 < p.burst := h p hpmem
          refine ⟨rfl, show time < time + p.burst by omega, ?_⟩
          exact ih _ _ (fun q hq => h q (removeFirst_subset hq))

theorem prioAux_width {pid : String} (hpid : pid ≠ "IDLE") :
    ∀ (fuel : Nat) (l : List Process) (time : Int), l.length ≤ fuel →
      ownedWidth pid (prioAux fuel l time) = burstSum pid l := by
  intro fuel
  induction fuel with
  | zero =>
    intro l time hlen
    rw [Nat.le_zero, List.length_eq_zero] at hlen
    subst hlen
    rfl
  | succ fuel ih =>
    intro l time hlen
    cases l with
    | nil => rfl
    | cons p0 rest =>
      rw [prioAux]
      by_cases hready : ((p0 :: rest).filter (fun p => decide (p.arrival ≤ time))).isEmpty
      · rw [if_pos hready, if_pos hready]
        rcases hpm : pyMinPrioArr
            ((p0 :: rest).filter (fun p => decide (p.arrival ≤ p0.arrival))) with _ | p
        · exfalso
          rw [pyMinPrioArr_none_iff] at hpm
          have : p0 ∈ (p0 :: rest).filter (fun p => decide (p.arrival ≤ p0.arrival)) :=
            List.mem_filter.mpr ⟨List.mem_cons_self _ _, by simp⟩
          rw [hpm] at this
          cases this
        · have hmem := pyMinPrioArr_mem hpm
          have hpmem : p ∈ p0 :: rest := List.mem_of_mem_filter hmem
          dsimp only
          rw [List.singleton_append, ownedWidth_cons, ownedWidth_cons]
          rw [ih _ _ (by
            have h1 := removeFirst_length hpmem
            simp only [List.length_cons] at h1 hlen
            omega)]
          rw [burstSum_removeFirst hpmem]
          by_cases hp : p.pid = pid
          · simp [hp, hpid]
          · simp [hp]
      · rw [if_neg hready, if_neg hready]
        rcases hpm : pyMinPrioArr
            ((p0 :: rest).filter (fun p => decide (p.arrival ≤ time))) with _ | p
        · exfalso
          rw [pyMinPrioArr_none_iff] at hpm
          rw [List.isEmpty_iff] at hready
          exact hready hpm
        · have hmem := pyMinPrioArr_mem hpm
          have hpmem : p ∈ p0 :: rest := List.mem_of_mem_filter hmem
          dsimp only
          rw [List.nil_append, ownedWidth_cons]
          rw [ih _ _ (by
            have h1 := removeFirst_length hpmem
            simp only [List.length_cons] at h1 hlen
            omega)]
          rw [burstSum_removeFirst hpmem]
          by_cases hp : p.pid = pid
          · simp [hp, hpid]
          · simp [hp]

/-! ## Round Robin -/

theorem nodup_pid_tail {p : Process} {rest pending : List Process}
    (hnd : (((p :: rest) ++ pending).map Process.pid).Nodup) :
    ∀ x ∈ rest ++ pending, x.pid ≠ p.pid := by
  simp only [List.cons_append, List.map_cons, List.nodup_cons] at hnd
  intro x hx heq
  exact hnd.1 (heq ▸ List.mem_map_of_mem Process.pid hx)

/-- Re-queueing the just-run process after the newly admitted arrivals
permutes the previous queue contents. -/
theorem requeue_perm (p : Process) (rest taken rest' : List Process) :
    ((((rest ++ taken) ++ [p]) ++ rest')).Perm ((p :: rest) ++ (taken ++ rest')) := by
  have h1 : ((rest ++ taken) ++ [p]) ++ rest' = (rest ++ taken) ++ (p :: rest') := by
    simp
  rw [h1]
  refine List.Perm.trans List.perm_middle (List.Perm.of_eq ?_)
  simp

theorem rrAux_chained {q : Int} (hq : 0 < q) :
    ∀ (fuel : Nat) (ready pending : List Process) (rem : String → Int) (time : Int)
      (g : List Block),
      (∀ x ∈ ready ++ pending, 0 < rem x.pid) →
      ((ready ++ pending).map Process.pid).Nodup →
      (∀ y l', pending = y :: l' → time < y.arrival) →
      rrAux q fuel ready pending rem time = some g → Chained time g := by
  intro fuel
  induction fuel with
  | zero =>
    intro ready pending rem time g _ _ _ hsome
    cases ready with
    | nil =>
      cases pending with
      | nil =>
        simp only [rrAux, Option.some.injEq] at hsome
        subst hsome
        trivial
      | cons y l =>
        simp only [rrAux] at hsome
        exact Option.noConfusion hsome
    | cons p rest =>
        simp only [rrAux] at hsome
        exact Option.noConfusion hsome
  | succ fuel ih =>
    intro ready pending rem time g hpos hnd hpend hsome
    cases ready with
    | nil =>
      cases pending with
      | nil =>
        simp only [rrAux, Option.some.injEq] at hsome
        subst hsome
        trivial
      | cons p ps =>
        rw [rrAux] at hsome
        obtain ⟨taken, rest', heq, hpendEq, htaken, hrest'⟩ :=
          addArrivals_spec p.arrival (p :: ps) []
        rw [heq] at hsome
        dsimp only at hsome
        rw [Option.map_eq_some'] at hsome
        obtain ⟨g', hg', hcons⟩ := hsome
        try dsimp only at hcons
        subst hcons
        refine ⟨rfl, show time < p.arrival from hpend p ps rfl, ?_⟩
        refine ih taken rest' rem p.arrival g' ?_ ?_ ?_ hg'
        · intro x hx
          refine hpos x ?_
          rw [List.nil_append, hpendEq]
          exact hx
        · rw [← List.nil_append (taken ++ rest'), ← hpendEq]
          exact hnd
        · exact hrest'
    | cons p rest =>
      rw [rrAux] at hsome
      obtain ⟨taken, rest', heq, hpendEq, htaken, hrest'⟩ :=
        addArrivals_spec (time + min q (rem p.pid)) pending rest
      rw [heq] at hsome
      dsimp only at hsome
      rw [show (if p.pid = p.pid then rem p.pid - min q (rem p.pid) else rem p.pid)
          = rem p.pid - min q (rem p.pid) from if_pos rfl] at hsome
      have hppos : 0 < rem p.pid := hpos p (by simp)
      have hrt : 0 < min q (rem p.pid) := lt_min hq hppos
      have hne : ∀ x ∈ rest ++ pending, x.pid ≠ p.pid := nodup_pid_tail hnd
      by_cases hrq : 0 < rem p.pid - min q (rem p.pid)
      · rw [if_pos hrq] at hsome
        rw [Option.map_eq_some'] at hsome
        obtain ⟨g', hg', hcons⟩ := hsome
        try dsimp only at hcons
        subst hcons
        refine ⟨rfl, show time < time + min q (rem p.pid) by omega, ?_⟩
        refine ih _ _ _ _ g' ?_ ?_ ?_ hg'
        · intro x hx
          simp only [List.mem_append, List.mem_singleton] at hx
          rcases hx with ((hx | hx) | rfl) | hx
          · have hxo : x ∈ rest ++ pending := List.mem_append.mpr (Or.inl hx)
            simpa [if_neg (hne x hxo)] using hpos x (List.mem_cons_of_mem _ hxo)
          · have hxo : x ∈ rest ++ pending :=
              List.mem_append.mpr (Or.inr (hpendEq ▸ List.mem_append.mpr (Or.inl hx)))
            simpa [if_neg (hne x hxo)] using hpos x (List.mem_cons_of_mem _ hxo)
          · simpa using hrq
          · have hxo : x ∈ rest ++ pending :=
              List.mem_append.mpr (Or.inr (hpendEq ▸ List.mem_append.mpr (Or.inr hx)))
            simpa [if_neg (hne x hxo)] using hpos x (List.mem_cons_of_mem _ hxo)
        · refine ((requeue_perm p rest taken rest').map Process.pid).nodup_iff.mpr ?_
          rw [← hpendEq]
          exact hnd
        · exact hrest'
      · rw [if_neg hrq] at hsome
        rw [Option.map_eq_some'] at hsome
        obtain ⟨g', hg', hcons⟩ := hsome
        try dsimp only at hcons
        subst hcons
        refine ⟨rfl, show time < time + min q (rem p.pid) by omega, ?_⟩
        refine ih _ _ _ _ g' ?_ ?_ ?_ hg'
        · intro x hx
          simp only [List.mem_append] at hx
          have hxo : x ∈ rest ++ pending := by
            rcases hx with (hx | hx) | hx
            · exact List.mem_append.mpr (Or.inl hx)
            · exact List.mem_append.mpr (Or.inr (hpendEq ▸ List.mem_append.mpr (Or.inl hx)))
            · exact List.mem_append.mpr (Or.inr (hpendEq ▸ List.mem_append.mpr (Or.inr hx)))
          simpa [if_neg (hne x hxo)] using hpos x (List.mem_cons_of_mem _ hxo)
        · rw [List.append_assoc, ← hpendEq]
          simp only [List.cons_append, List.map_cons, List.nodup_cons] at hnd
          exact hnd.2
        · exact hrest'

/-- With an empty pending list, every block Round Robin emits is owned
by a process of the ready queue (in particular no IDLE block appears). -/
theorem rrAux_pids {q : Int} :
    ∀ (fuel : Nat) (ready : List Process) (rem : String → Int) (time : Int)
      (g : List Block),
      rrAux q fuel ready [] rem time = some g →
      ∀ b ∈ g, b.pid ∈ ready.map Process.pid := by
  intro fuel
  induction fuel with
  | zero =>
    intro ready rem time g hsome
    cases ready with
    | nil =>
      simp only [rrAux, Option.some.injEq] at hsome
      subst hsome
      intro b hb
      cases hb
    | cons p rest =>
      simp only [rrAux] at hsome
      exact Option.noConfusion hsome
  | succ fuel ih =>
    intro ready rem time g hsome
    cases ready with
    | nil =>
      simp only [rrAux, Option.some.injEq] at hsome
      subst hsome
      intro b hb
      cases hb
    | cons p rest =>
      rw [rrAux] at hsome
      dsimp only [addArrivals] at hsome
      rw [show (if p.pid = p.pid then rem p.pid - min q (rem p.pid) else rem p.pid)
          = rem p.pid - min q (rem p.pid) from if_pos rfl] at hsome
      by_cases hrq : 0 < rem p.pid - min q (rem p.pid)
      · rw [if_pos hrq] at hsome
        rw [Option.map_eq_some'] at hsome
        obtain ⟨g', hg', hcons⟩ := hsome
        try dsimp only at hcons
        subst hcons
        intro b hb
        rcases List.mem_cons.mp hb with rfl | hb
        · simp
        · have := ih _ _ _ _ hg' b hb
          simp only [List.map_append, List.mem_append, List.map_cons, List.map_nil,
            List.mem_cons] at this ⊢
          tauto
      · rw [if_neg hrq] at hsome
        rw [Option.map_eq_some'] at hsome
        obtain ⟨g', hg', hcons⟩ := hsome
        try dsimp only at hcons
        subst hcons
        intro b hb
        rcases List.mem_cons.mp hb with rfl | hb
        · simp
        · have := ih _ _ _ _ hg' b hb
          simp only [List.map_cons, List.mem_cons] at this ⊢
          tauto

/-- The Round Robin loop terminates: with fuel exceeding the loop
measure it always returns a timeline. -/
theorem rrAux_isSome {q : Int} (hq : 0 < q) :
    ∀ (fuel : Nat) (ready pending : List Process) (rem : String → Int) (time : Int),
      (∀ x ∈ ready ++ pending, 0 < rem x.pid) →
      ((ready ++ pending).map Process.pid).Nodup →
      rrMeasure ready pending rem < fuel →
      ∃ g, rrAux q fuel ready pending rem time = some g := by
  intro fuel
  induction fuel with
  | zero =>
    intro ready pending rem time _ _ hm
    exact absurd hm (Nat.not_lt_zero _)
  | succ fuel ih =>
    intro ready pending rem time hpos hnd hm
    cases ready with
    | nil =>
      cases pending with
      | nil => exact ⟨[], rfl⟩
      | cons p ps =>
        rw [rrAux]
        obtain ⟨taken, rest', heq, hpendEq, htaken, hrest'⟩ :=
          addArrivals_spec p.arrival (p :: ps) []
        rw [heq]
        dsimp only [List.nil_append]
        have htne : taken ≠ [] := by
          intro hte
          subst hte
          rw [List.nil_append] at hpendEq
          exact absurd (hrest' p ps hpendEq.symm) (lt_irrefl _)
        have hS : (((p :: ps)).map (fun x => (rem x.pid).toNat)).sum =
            ((taken).map (fun x => (rem x.pid).toNat)).sum +
              ((rest').map (fun x => (rem x.pid).toNat)).sum := by
          rw [hpendEq, List.map_append, List.sum_append]
        have hL : (p :: ps).length = taken.length + rest'.length := by
          rw [hpendEq, List.length_append]
        have hmlt : rrMeasure taken rest' rem < fuel := by
          simp only [rrMeasure, List.nil_append, List.map_append, List.sum_append,
            List.length_append] at hm ⊢
          have h1 : 1 ≤ taken.length := by
            cases taken with
            | nil => exact absurd rfl htne
            | cons t ts => simp
          omega
        obtain ⟨g', hg'⟩ := ih taken rest' rem p.arrival
          (by
            intro x hx
            refine hpos x ?_
            rw [List.nil_append, hpendEq]
            exact hx)
          (by
            rw [← List.nil_append (taken ++ rest'), ← hpendEq]
            exact hnd)
          hmlt
        exact ⟨_, by rw [hg']; rfl⟩
    | cons p rest =>
      rw [rrAux]
      obtain ⟨taken, rest', heq, hpendEq, htaken, hrest'⟩ :=
        addArrivals_spec (time + min q (rem p.pid)) pending rest
      rw [heq]
      dsimp only
      rw [show (if p.pid = p.pid then rem p.pid - min q (rem p.pid) else rem p.pid)
          = rem p.pid - min q (rem p.pid) from if_pos rfl]
      have hppos : 0 < rem p.pid := hpos p (by simp)
      have hrt : 0 < min q (rem p.pid) := lt_min hq hppos
      have hrtle : min q (rem p.pid) ≤ rem p.pid := min_le_right _ _
      have hne : ∀ x ∈ rest ++ pending, x.pid ≠ p.pid := nodup_pid_tail hnd
      have hrest_sum : ∀ (l : List Process), (∀ x ∈ l, x.pid ≠ p.pid) →
          (l.map (fun x =>
            ((fun s => if s = p.pid then rem s - min q (rem p.pid) else rem s) x.pid).toNat)).sum
            = (l.map (fun x => (rem x.pid).toNat)).sum := by
        intro l hl
        congr 1
        apply List.map_congr_left
        intro x hx
        simp only [if_neg (hl x hx)]
      have hneRest : ∀ x ∈ rest, x.pid ≠ p.pid :=
        fun x hx => hne x (List.mem_append.mpr (Or.inl hx))
      have hneTaken : ∀ x ∈ taken, x.pid ≠ p.pid :=
        fun x hx => hne x (List.mem_append.mpr (Or.inr (hpendEq ▸
          List.mem_append.mpr (Or.inl hx))))
      have hneRest' : ∀ x ∈ rest', x.pid ≠ p.pid :=
        fun x hx => hne x (List.mem_append.mpr (Or.inr (hpendEq ▸
          List.mem_append.mpr (Or.inr hx))))
      have hSpend : ((pending).map (fun x => (rem x.pid).toNat)).sum =
          ((taken).map (fun x => (rem x.pid).toNat)).sum +
            ((rest').map (fun x => (rem x.pid).toNat)).sum := by
        rw [hpendEq, List.map_append, List.sum_append]
      have hLpend : pending.length = taken.length + rest'.length := by
        rw [hpendEq, List.length_append]
      by_cases hrq : 0 < rem p.pid - min q (rem p.pid)
      · rw [if_pos hrq]
        have hmlt : rrMeasure ((rest ++ taken) ++ [p]) rest'
            (fun s => if s = p.pid then rem s - min q (rem p.pid) else rem s) < fuel := by
          simp only [rrMeasure, List.cons_append, List.map_append, List.sum_append,
            List.length_append, List.map_cons, List.sum_cons, List.map_nil,
            List.sum_nil, List.length_cons, List.length_nil] at hm ⊢
          rw [hrest_sum rest hneRest, hrest_sum taken hneTaken, hrest_sum rest' hneRest']
          simp only [if_true]
          omega
        obtain ⟨g', hg'⟩ := ih ((rest ++ taken) ++ [p]) rest' _ (time + min q (rem p.pid))
          (by
            intro x hx
            simp only [List.mem_append, List.mem_singleton] at hx
            rcases hx with ((hx | hx) | rfl) | hx
            · have hxo : x ∈ rest ++ pending := List.mem_append.mpr (Or.inl hx)
              simpa [if_neg (hne x hxo)] using hpos x (List.mem_cons_of_mem _ hxo)
            · have hxo : x ∈ rest ++ pending :=
                List.mem_append.mpr (Or.inr (hpendEq ▸ List.mem_append.mpr (Or.inl hx)))
              simpa [if_neg (hne x hxo)] using hpos x (List.mem_cons_of_mem _ hxo)
            · simpa using hrq
            · have hxo : x ∈ rest ++ pending :=
                List.mem_append.mpr (Or.inr (hpendEq ▸ List.mem_append.mpr (Or.inr hx)))
              simpa [if_neg (hne x hxo)] using hpos x (List.mem_cons_of_mem _ hxo))
          (by
            refine ((requeue_perm p rest taken rest').map Process.pid).nodup_iff.mpr ?_
            rw [← hpendEq]
            exact hnd)
          hmlt
        exact ⟨_, by rw [hg']; rfl⟩
      · rw [if_neg hrq]
        have hmlt : rrMeasure (rest ++ taken) rest'
            (fun s => if s = p.pid then rem s - min q (rem p.pid) else rem s) < fuel := by
          simp only [rrMeasure, List.cons_append, List.map_append, List.sum_append,
            List.length_append, List.map_cons, List.sum_cons, List.length_cons] at hm ⊢
          rw [hrest_sum rest hneRest, hrest_sum taken hneTaken, hrest_sum rest' hneRest']
          omega
        obtain ⟨g', hg'⟩ := ih (rest ++ taken) rest' _ (time + min q (rem p.pid))
          (by
            intro x hx
            simp only [List.mem_append] at hx
            have hxo : x ∈ rest ++ pending := by
              rcases hx with (hx | hx) | hx
              · exact List.mem_append.mpr (Or.inl hx)
              · exact List.mem_append.mpr (Or.inr (hpendEq ▸ List.mem_append.mpr (Or.inl hx)))
              · exact List.mem_append.mpr (Or.inr (hpendEq ▸ List.mem_append.mpr (Or.inr hx)))
            simpa [if_neg (hne x hxo)] using hpos x (List.mem_cons_of_mem _ hxo))
          (by
            rw [List.append_assoc, ← hpendEq]
            simp only [List.cons_append, List.map_cons, List.nodup_cons] at hnd
            exact hnd.2)
          hmlt
        exact ⟨_, by rw [hg']; rfl⟩

/-- Burst accounting for the Round Robin loop: the width owned by a pid
in the produced timeline equals the remaining burst of that pid if it is
queued, and 0 otherwise. -/
theorem rrAux_width {q : Int} (hq : 0 < q) {pid : String} (hpid : pid ≠ "IDLE") :
    ∀ (fuel : Nat) (ready pending : List Process) (rem : String → Int) (time : Int)
      (g : List Block),
      (∀ x ∈ ready ++ pending, 0 < rem x.pid) →
      ((ready ++ pending).map Process.pid).Nodup →
      rrAux q fuel ready pending rem time = some g →
      ownedWidth pid g =
        if pid ∈ (ready ++ pending).map Process.pid then rem pid else 0 := by
  intro fuel
  induction fuel with
  | zero =>
    intro ready pending rem time g _ _ hsome
    cases ready with
    | nil =>
      cases pending with
      | nil =>
        simp only [rrAux, Option.some.injEq] at hsome
        subst hsome
        simp [ownedWidth_nil]
      | cons y l =>
        simp only [rrAux] at hsome
        exact Option.noConfusion hsome
    | cons p rest =>
      simp only [rrAux] at hsome
      exact Option.noConfusion hsome
  | succ fuel ih =>
    intro ready pending rem time g hpos hnd hsome
    cases ready with
    | nil =>
      cases pending with
      | nil =>
        simp only [rrAux, Option.some.injEq] at hsome
        subst hsome
        simp [ownedWidth_nil]
      | cons p ps =>
        rw [rrAux] at hsome
        obtain ⟨taken, rest', heq, hpendEq, htaken, hrest'⟩ :=
          addArrivals_spec p.arrival (p :: ps) []
        rw [heq] at hsome
        dsimp only [List.nil_append] at hsome
        rw [Option.map_eq_some'] at hsome
        obtain ⟨g', hg', hcons⟩ := hsome
        try dsimp only at hcons
        subst hcons
        rw [ownedWidth_cons]
        rw [ih taken rest' rem p.arrival g'
          (by
            intro x hx
            refine hpos x ?_
            rw [List.nil_append, hpendEq]
            exact hx)
          (by
            rw [← List.nil_append (taken ++ rest'), ← hpendEq]
            exact hnd)
          hg']
        have hIdle : ¬ (("IDLE" : String) ≠ "IDLE" ∧ ("IDLE" : String) = pid) := by
          intro h
          exact h.1 rfl
        rw [if_neg hIdle, List.nil_append, hpendEq]
        omega
    | cons p rest =>
      rw [rrAux] at hsome
      obtain ⟨taken, rest', heq, hpendEq, htaken, hrest'⟩ :=
        addArrivals_spec (time + min q (rem p.pid)) pending rest
      rw [heq] at hsome
      dsimp only at hsome
      rw [show (if p.pid = p.pid then rem p.pid - min q (rem p.pid) else rem p.pid)
          = rem p.pid - min q (rem p.pid) from if_pos rfl] at hsome
      have hppos : 0 < rem p.pid := hpos p (by simp)
      have hrt : 0 < min q (rem p.pid) := lt_min hq hppos
      have hrtle : min q (rem p.pid) ≤ rem p.pid := min_le_right _ _
      have hne : ∀ x ∈ rest ++ pending, x.pid ≠ p.pid := nodup_pid_tail hnd
      have hmemOld : pid ∈ ((p :: rest) ++ pending).map Process.pid ↔
          (pid = p.pid ∨ pid ∈ (rest ++ pending).map Process.pid) := by
        simp only [List.map_append, List.map_cons, List.mem_append, List.mem_cons]
        tauto
      by_cases hrq : 0 < rem p.pid - min q (rem p.pid)
      · rw [if_pos hrq] at hsome
        rw [Option.map_eq_some'] at hsome
        obtain ⟨g', hg', hcons⟩ := hsome
        try dsimp only at hcons
        subst hcons
        rw [ownedWidth_cons]
        rw [ih _ _ _ _ g'
          (by
            intro x hx
            simp only [List.mem_append, List.mem_singleton] at hx
            rcases hx with ((hx | hx) | rfl) | hx
            · have hxo : x ∈ rest ++ pending := List.mem_append.mpr (Or.inl hx)
              simpa [if_neg (hne x hxo)] using hpos x (List.mem_cons_of_mem _ hxo)
            · have hxo : x ∈ rest ++ pending :=
                List.mem_append.mpr (Or.inr (hpendEq ▸ List.mem_append.mpr (Or.inl hx)))
              simpa [if_neg (hne x hxo)] using hpos x (List.mem_cons_of_mem _ hxo)
            · simpa using hrq
            · have hxo : x ∈ rest ++ pending :=
                List.mem_append.mpr (Or.inr (hpendEq ▸ List.mem_append.mpr (Or.inr hx)))
              simpa [if_neg (hne x hxo)] using hpos x (List.mem_cons_of_mem _ hxo))
          (by
            refine ((requeue_perm p rest taken rest').map Process.pid).nodup_iff.mpr ?_
            rw [← hpendEq]
            exact hnd)
          hg']
        have hmemNew : pid ∈ ((((rest ++ taken) ++ [p]) ++ rest')).map Process.pid ↔
            (pid = p.pid ∨ pid ∈ (rest ++ pending).map Process.pid) := by
          rw [hpendEq]
          simp only [List.map_append, List.map_cons, List.map_nil, List.mem_append,
            List.mem_cons, List.not_mem_nil, or_false]
          tauto
        by_cases hpp : pid = p.pid
        · rw [if_pos (hmemNew.mpr (Or.inl hpp)), if_pos (hmemOld.mpr (Or.inl hpp))]
          rw [if_pos ⟨hpp ▸ hpid, hpp.symm⟩]
          rw [if_pos hpp]
          show time + min q (rem p.pid) - time + (rem pid - min q (rem p.pid)) = rem pid
          omega
        · rw [if_neg hpp]
          have hc1 : ¬ (p.pid ≠ "IDLE" ∧ p.pid = pid) := by
            intro h
            exact hpp h.2.symm
          rw [if_neg hc1]
          rw [if_congr (hmemNew.trans hmemOld.symm) rfl rfl]
          omega
      · rw [if_neg hrq] at hsome
        rw [Option.map_eq_some'] at hsome
        obtain ⟨g', hg', hcons⟩ := hsome
        try dsimp only at hcons
        subst hcons
        rw [ownedWidth_cons]
        rw [ih _ _ _ _ g'
          (by
            intro x hx
            simp only [List.mem_append] at hx
            have hxo : x ∈ rest ++ pending := by
              rcases hx with (hx | hx) | hx
              · exact List.mem_append.mpr (Or.inl hx)
              · exact List.mem_append.mpr (Or.inr (hpendEq ▸ List.mem_append.mpr (Or.inl hx)))
              · exact List.mem_append.mpr (Or.inr (hpendEq ▸ List.mem_append.mpr (Or.inr hx)))
            simpa [if_neg (hne x hxo)] using hpos x (List.mem_cons_of_mem _ hxo))
          (by
            rw [List.append_assoc, ← hpendEq]
            simp only [List.cons_append, List.map_cons, List.nodup_cons] at hnd
            exact hnd.2)
          hg']
        have hmemNew : pid ∈ ((rest ++ taken) ++ rest').map Process.pid ↔
            pid ∈ (rest ++ pending).map Process.pid := by
          rw [hpendEq]
          simp only [List.map_append, List.mem_append]
          tauto
        by_cases hpp : pid = p.pid
        · have hnotin : pid ∉ ((rest ++ taken) ++ rest').map Process.pid := by
            intro hmem
            rw [hmemNew] at hmem
            obtain ⟨x, hx, hxpid⟩ := List.mem_map.mp hmem
            exact hne x hx (hxpid.trans hpp)
          rw [if_neg hnotin, if_pos (hmemOld.mpr (Or.inl hpp)),
            if_pos ⟨hpp ▸ hpid, hpp.symm⟩]
          have h2 : rem pid = rem p.pid := by rw [hpp]
          show time + min q (rem p.pid) - time + 0 = rem pid
          omega
        · rw [if_neg hpp]
          have hc1 : ¬ (p.pid ≠ "IDLE" ∧ p.pid = pid) := by
            intro h
            exact hpp h.2.symm
          rw [if_neg hc1]
          have hiff : (pid ∈ ((rest ++ taken) ++ rest').map Process.pid) ↔
              pid ∈ ((p :: rest) ++ pending).map Process.pid :=
            hmemNew.trans ⟨fun h => hmemOld.mpr (Or.inr h),
              fun h => (hmemOld.mp h).resolve_left hpp⟩
          rw [if_congr hiff rfl rfl]
          omega

/-- For a valid process set and a positive quantum, `simulate_rr`
succeeds and its timeline is chained from 0 and gives every process
exactly its burst of execution. -/
theorem simulate_rr_spec {ps : List Process} {q : Int}
    (hv : ValidProcs ps) (hq : 0 < q) :
    ∃ g, simulate_rr ps (some q) = .ok g ∧ Chained 0 g ∧
      ∀ p ∈ ps, ownedWidth p.pid g = p.burst := by
  obtain ⟨hvp, hnd⟩ := hv
  have hnd' : ((sortByArrival ps).map Process.pid).Nodup := sortByArrival_map_pid_nodup hnd
  rw [simulate_rr]
  rw [if_neg (by omega : ¬ q ≤ 0)]
  dsimp only
  obtain ⟨taken, rest', heq, hpendEq, htaken, hrest'⟩ :=
    addArrivals_spec 0 (sortByArrival ps) []
  rw [heq]
  dsimp only [List.nil_append]
  have hqueue : taken ++ rest' = sortByArrival ps := hpendEq.symm
  have hpos0 : ∀ x ∈ taken ++ rest',
      0 < (pidDict (fun p => p.burst) (sortByArrival ps)) x.pid := by
    intro x hx
    rw [hqueue] at hx
    rw [pidDict_eq hx hnd']
    exact (hvp x (mem_sortByArrival.mp hx)).2.1
  have hnd0 : ((taken ++ rest').map Process.pid).Nodup := by
    rw [hqueue]
    exact hnd'
  have hpend0 : ∀ y l', rest' = y :: l' → (0 : Int) < y.arrival := hrest'
  obtain ⟨g, hg⟩ := rrAux_isSome hq
    (rrFuel taken rest' (pidDict (fun p => p.burst) (sortByArrival ps))) taken rest'
    (pidDict (fun p => p.burst) (sortByArrival ps)) 0 hpos0 hnd0
    (Nat.lt_succ_self _)
  rw [hg]
  refine ⟨g, rfl, rrAux_chained hq _ taken rest' _ 0 g hpos0 hnd0 hpend0 hg, ?_⟩
  intro p hp
  have hpmem : p ∈ sortByArrival ps := mem_sortByArrival.mpr hp
  have hpid : p.pid ≠ "IDLE" := (hvp p hp).2.2
  rw [rrAux_width hq hpid _ taken rest' _ 0 g hpos0 hnd0 hg]
  rw [if_pos (by rw [hqueue]; exact List.mem_map_of_mem Process.pid hpmem)]
  exact pidDict_eq hpmem hnd'

/-! ## Metrics calculator -/

theorem foldl_max_spec (l : List Int) : ∀ a : Int,
    a ≤ l.foldl max a ∧ (∀ x ∈ l, x ≤ l.foldl max a) ∧
      (l.foldl max a = a ∨ l.foldl max a ∈ l) := by
  induction l with
  | nil =>
    intro a
    exact ⟨le_rfl, fun x hx => absurd hx (List.not_mem_nil x), Or.inl rfl⟩
  | cons b rest ih =>
    intro a
    rw [List.foldl_cons]
    obtain ⟨ih1, ih2, ih3⟩ := ih (max a b)
    refine ⟨le_trans (le_max_left a b) ih1, ?_, ?_⟩
    · intro x hx
      rcases List.mem_cons.mp hx with rfl | hx
      · exact le_trans (le_max_right a x) ih1
      · exact ih2 x hx
    · rcases ih3 with heq | hmem
      · rcases max_choice a b with hab | hab
        · exact Or.inl (heq.trans hab)
        · refine Or.inr ?_
          rw [heq, hab]
          exact List.mem_cons_self _ _
      · exact Or.inr (List.mem_cons_of_mem _ hmem)

theorem foldl_min_spec (l : List Int) : ∀ a : Int,
    l.foldl min a ≤ a ∧ (∀ x ∈ l, l.foldl min a ≤ x) ∧
      (l.foldl min a = a ∨ l.foldl min a ∈ l) := by
  induction l with
  | nil =>
    intro a
    exact ⟨le_rfl, fun x hx => absurd hx (List.not_mem_nil x), Or.inl rfl⟩
  | cons b rest ih =>
    intro a
    rw [List.foldl_cons]
    obtain ⟨ih1, ih2, ih3⟩ := ih (min a b)
    refine ⟨le_trans ih1 (min_le_left a b), ?_, ?_⟩
    · intro x hx
      rcases List.mem_cons.mp hx with rfl | hx
      · exact le_trans ih1 (min_le_right a x)
      · exact ih2 x hx
    · rcases ih3 with heq | hmem
      · rcases min_choice a b with hab | hab
        · exact Or.inl (heq.trans hab)
        · refine Or.inr ?_
          rw [heq, hab]
          exact List.mem_cons_self _ _
      · exact Or.inr (List.mem_cons_of_mem _ hmem)

theorem completionOf_eq (pid : String) : ∀ (g : List Block) (a : Int),
    g.foldl (fun acc b => if b.pid ≠ "IDLE" ∧ b.pid = pid then max acc b.stop else acc) a
      = ((ownedBlocks pid g).map (fun b => b.stop)).foldl max a := by
  intro g
  induction g with
  | nil => intro a; rfl
  | cons b rest ih =>
    intro a
    rw [List.foldl_cons, ownedBlocks, List.filter_cons]
    by_cases hb : b.pid ≠ "IDLE" ∧ b.pid = pid
    · rw [if_pos hb, if_pos (by simpa using hb)]
      rw [List.map_cons, List.foldl_cons]
      exact ih (max a b.stop)
    · rw [if_neg hb, if_neg (by simpa using hb)]
      exact ih a

theorem firstStartOf_some (pid : String) : ∀ (g : List Block) (s : Int),
    g.foldl
      (fun acc b =>
        if b.pid ≠ "IDLE" ∧ b.pid = pid then
          match acc with
          | none => some b.start
          | some s => some (min s b.start)
        else acc) (some s)
      = some (((ownedBlocks pid g).map (fun b => b.start)).foldl min s) := by
  intro g
  induction g with
  | nil => intro s; rfl
  | cons b rest ih =>
    intro s
    rw [List.foldl_cons, ownedBlocks, List.filter_cons]
    by_cases hb : b.pid ≠ "IDLE" ∧ b.pid = pid
    · rw [if_pos hb, if_pos (by simpa using hb)]
      rw [List.map_cons, List.foldl_cons]
      exact ih (min s b.start)
    · rw [if_neg hb, if_neg (by simpa using hb)]
      exact ih s

theorem firstStartOf_eq (pid : String) : ∀ (g : List Block),
    firstStartOf pid g =
      match (ownedBlocks pid g).map (fun b => b.start) with
      | [] => none
      | s :: ss => some (ss.foldl min s) := by
  intro g
  induction g with
  | nil => rfl
  | cons b rest ih =>
    rw [firstStartOf, List.foldl_cons, ownedBlocks, List.filter_cons]
    by_cases hb : b.pid ≠ "IDLE" ∧ b.pid = pid
    · rw [if_pos hb, if_pos (by simpa using hb)]
      rw [List.map_cons]
      exact firstStartOf_some pid rest b.start
    · rw [if_neg hb, if_neg (by simpa using hb)]
      exact ih

/-- `compute_metrics` on a non-empty process list succeeds and returns
the per-process metrics records in process order; the summary's
`total_time` is the makespan of the timeline. -/
theorem compute_metrics_ok {ps : List Process} (gantt : List Block) (hne : ps ≠ []) :
    ∃ s, compute_metrics ps gantt =
      .ok (ps.map (fun p => (p.pid,
          metricsFor (pidDict (fun x => x.arrival) ps) (pidDict (fun x => x.burst) ps)
            gantt p.pid)), s)
        ∧ s.total_time = makespan gantt := by
  rw [compute_metrics]
  rw [if_neg (by
    intro h
    rw [List.length_map] at h
    exact hne (List.length_eq_zero.mp h))]
  have hmaps : (ps.map Process.pid).map (fun pid =>
      (pid, metricsFor (pidDict (fun x => x.arrival) ps) (pidDict (fun x => x.burst) ps)
        gantt pid))
      = ps.map (fun p => (p.pid,
          metricsFor (pidDict (fun x => x.arrival) ps) (pidDict (fun x => x.burst) ps)
            gantt p.pid)) := by
    rw [List.map_map]
    rfl
  rw [hmaps]
  exact ⟨_, rfl, rfl⟩

theorem lookup_map_pid {ps : List Process} {p : Process} (hp : p ∈ ps)
    (F : String → Metrics) :
    List.lookup p.pid (ps.map (fun x => (x.pid, F x.pid))) = some (F p.pid) := by
  induction ps with
  | nil => cases hp
  | cons x rest ih =>
    rw [List.map_cons, List.lookup_cons]
    by_cases hpx : p.pid = x.pid
    · rw [show (p.pid == x.pid) = true from beq_iff_eq.mpr hpx]
      dsimp only
      rw [hpx]
    · rcases List.mem_cons.mp hp with rfl | hp'
      · exact absurd rfl hpx
      · rw [show (p.pid == x.pid) = false from beq_eq_false_iff_ne.mpr hpx]
        dsimp only
        exact ih hp'

/-! ## Claims -/

/-- C1: for every valid process set (arrivals ≥ 0, bursts > 0, unique
non-IDLE pids) and every one of the four disciplines (quantum > 0 for
Round Robin), the returned Timeline is contiguous and gap-free:
non-decreasing start order, adjacent intervals meet exactly, no two
intervals overlap, positive widths, and full coverage of
`[0, makespan)` with gaps materialized as explicit IDLE intervals. -/
theorem claim_C1_timeline_gap_free (ps : List Process) (hv : ValidProcs ps) :
    GapFree (simulate_fcfs ps) ∧ GapFree (simulate_sjf_np ps) ∧
      GapFree (simulate_priority_np ps) ∧
      ∀ q : Int, 0 < q → ∃ g, simulate_rr ps (some q) = .ok g ∧ GapFree g := by
  have hb : ∀ p ∈ sortByArrival ps, 0 < p.burst :=
    fun p hp => (hv.1 p (mem_sortByArrival.mp hp)).2.1
  refine ⟨chained_gapFree (fcfsAux_chained _ 0 hb),
    chained_gapFree (sjfAux_chained _ _ 0 hb),
    chained_gapFree (prioAux_chained _ _ 0 hb), ?_⟩
  intro q hq
  obtain ⟨g, hg, hch, _⟩ := simulate_rr_spec hv hq
  exact ⟨g, hg, chained_gapFree hch⟩

/-- Witness for C1 at a concrete process set. -/
theorem claim_C1_witness :
    ValidProcs [⟨"P1", 0, 5, 0⟩, ⟨"P2", 1, 3, 0⟩] ∧
      (GapFree (simulate_fcfs [⟨"P1", 0, 5, 0⟩, ⟨"P2", 1, 3, 0⟩]) ∧
        GapFree (simulate_sjf_np [⟨"P1", 0, 5, 0⟩, ⟨"P2", 1, 3, 0⟩]) ∧
        GapFree (simulate_priority_np [⟨"P1", 0, 5, 0⟩, ⟨"P2", 1, 3, 0⟩]) ∧
        ∀ q : Int, 0 < q →
          ∃ g, simulate_rr [⟨"P1", 0, 5, 0⟩, ⟨"P2", 1, 3, 0⟩] (some q) = .ok g ∧ GapFree g) :=
  ⟨by unfold ValidProcs; decide,
    claim_C1_timeline_gap_free [⟨"P1", 0, 5, 0⟩, ⟨"P2", 1, 3, 0⟩]
      (by unfold ValidProcs; decide)⟩

/-- C2: for every valid process set, every discipline and every
submitted process, the total width of the non-IDLE intervals owned by
that process equals its burst time exactly. -/
theorem claim_C2_width_eq_burst (ps : List Process) (hv : ValidProcs ps)
    (p : Process) (hp : p ∈ ps) :
    ownedWidth p.pid (simulate_fcfs ps) = p.burst ∧
      ownedWidth p.pid (simulate_sjf_np ps) = p.burst ∧
      ownedWidth p.pid (simulate_priority_np ps) = p.burst ∧
      ∀ q : Int, 0 < q →
        ∃ g, simulate_rr ps (some q) = .ok g ∧ ownedWidth p.pid g = p.burst := by
  have hpid : p.pid ≠ "IDLE" := (hv.1 p hp).2.2
  have hnd' := sortByArrival_map_pid_nodup hv.2
  have hps : p ∈ sortByArrival ps := mem_sortByArrival.mpr hp
  have hbs : burstSum p.pid (sortByArrival ps) = p.burst := burstSum_eq_burst hps hnd'
  have hlen : (sortByArrival ps).length ≤ ps.length :=
    le_of_eq (sortByArrival_perm ps).length_eq
  refine ⟨?_, ?_, ?_, ?_⟩
  · rw [simulate_fcfs, fcfsAux_width hpid, hbs]
  · rw [simulate_sjf_np, sjfAux_width hpid _ _ 0 hlen, hbs]
  · rw [simulate_priority_np, prioAux_width hpid _ _ 0 hlen, hbs]
  · intro q hq
    obtain ⟨g, hg, _, hw⟩ := simulate_rr_spec hv hq
    exact ⟨g, hg, hw p hp⟩

/-- Witness for C2 at a concrete process set and process. -/
theorem claim_C2_witness :
    (ValidProcs [⟨"P1", 0, 5, 0⟩, ⟨"P2", 1, 3, 0⟩] ∧
        (⟨"P2", 1, 3, 0⟩ : Process) ∈ [⟨"P1", 0, 5, 0⟩, ⟨"P2", 1, 3, 0⟩]) ∧
      (ownedWidth "P2" (simulate_fcfs [⟨"P1", 0, 5, 0⟩, ⟨"P2", 1, 3, 0⟩]) = 3 ∧
        ownedWidth "P2" (simulate_sjf_np [⟨"P1", 0, 5, 0⟩, ⟨"P2", 1, 3, 0⟩]) = 3 ∧
        ownedWidth "P2" (simulate_priority_np [⟨"P1", 0, 5, 0⟩, ⟨"P2", 1, 3, 0⟩]) = 3 ∧
        ∀ q : Int, 0 < q →
          ∃ g, simulate_rr [⟨"P1", 0, 5, 0⟩, ⟨"P2", 1, 3, 0⟩] (some q) = .ok g ∧
            ownedWidth "P2" g = 3) :=
  ⟨⟨by unfold ValidProcs; decide, by decide⟩,
    claim_C2_width_eq_burst [⟨"P1", 0, 5, 0⟩, ⟨"P2", 1, 3, 0⟩]
      (by unfold ValidProcs; decide) ⟨"P2", 1, 3, 0⟩ (by decide)⟩

/-- C9: for every valid process set and positive quantum, the Round
Robin simulation loop terminates and returns a timeline (the fuel
bound derived from the strictly decreasing loop measure is never
exhausted). -/
theorem claim_C9_rr_terminates (ps : List Process) (q : Int)
    (hv : ValidProcs ps) (hq : 0 < q) :
    ∃ g, simulate_rr ps (some q) = .ok g := by
  obtain ⟨g, hg, _, _⟩ := simulate_rr_spec hv hq
  exact ⟨g, hg⟩

/-- Witness for C9 at a concrete process set and quantum. -/
theorem claim_C9_witness :
    (ValidProcs [⟨"A", 0, 4, 0⟩, ⟨"B", 6, 2, 0⟩] ∧ (0 : Int) < 3) ∧
      ∃ g, simulate_rr [⟨"A", 0, 4, 0⟩, ⟨"B", 6, 2, 0⟩] (some 3) = .ok g :=
  ⟨⟨by unfold ValidProcs; decide, by decide⟩,
    claim_C9_rr_terminates [⟨"A", 0, 4, 0⟩, ⟨"B", 6, 2, 0⟩] 3
      (by unfold ValidProcs; decide) (by decide)⟩

/-- C4: one non-idle Round Robin step admits the processes that arrived
during the execution window to the ready queue strictly before the
just-run process is re-appended (the new queue is
`rest ++ newly-arrived ++ [just-run]` when remaining burst is positive),
and consequently on [(P1,0,5),(P2,1,3)] with quantum 2 the builder
returns exactly [(P1,0,2),(P2,2,4),(P1,4,6),(P2,6,7),(P1,7,8)]. -/
theorem claim_C4_rr_admission_before_requeue :
    (∀ (q : Int) (fuel : Nat) (p : Process) (rest pending : List Process)
        (rem : String → Int) (time : Int),
      ∃ taken,
        (addArrivals (time + min q (rem p.pid)) rest pending).1 = rest ++ taken ∧
        (∀ x ∈ taken, x.arrival ≤ time + min q (rem p.pid)) ∧
        rrAux q (fuel + 1) (p :: rest) pending rem time =
          (rrAux q fuel
            (if 0 < rem p.pid - min q (rem p.pid) then (rest ++ taken) ++ [p]
              else rest ++ taken)
            (addArrivals (time + min q (rem p.pid)) rest pending).2
            (fun s => if s = p.pid then rem s - min q (rem p.pid) else rem s)
            (time + min q (rem p.pid))).map
            (fun g => ⟨p.pid, time, time + min q (rem p.pid)⟩ :: g)) ∧
    simulate_rr [⟨"P1", 0, 5, 0⟩, ⟨"P2", 1, 3, 0⟩] (some 2) =
      .ok [⟨"P1", 0, 2⟩, ⟨"P2", 2, 4⟩, ⟨"P1", 4, 6⟩, ⟨"P2", 6, 7⟩, ⟨"P1", 7, 8⟩] := by
  constructor
  · intro q fuel p rest pending rem time
    obtain ⟨taken, rest', heq, hpendEq, htaken, hrest'⟩ :=
      addArrivals_spec (time + min q (rem p.pid)) pending rest
    refine ⟨taken, by rw [heq], htaken, ?_⟩
    rw [rrAux]
    rw [heq]
    dsimp only
    rw [show (if p.pid = p.pid then rem p.pid - min q (rem p.pid) else rem p.pid)
        = rem p.pid - min q (rem p.pid) from if_pos rfl]
  · rfl

/-- C5: Python's min fold — used by the SJF builder to pick the next
job — always selects a ready process with minimal burst and, among
equal bursts, the earliest-listed one (every element listed before the
selection has a strictly larger key); on [(P1,0,7),(P2,2,4),(P3,4,1)]
the builder returns exactly [(P1,0,7),(P3,7,8),(P2,8,12)]. -/
theorem claim_C5_sjf_selection :
    (∀ (key : Process → Int) (x : Process) (xs : List Process),
      ∃ p, pyMin key (x :: xs) = some p ∧ p ∈ x :: xs ∧
        (∀ z ∈ x :: xs, key p ≤ key z) ∧
        ∃ pre post, x :: xs = pre ++ p :: post ∧ ∀ y ∈ pre, key p < key y) ∧
    simulate_sjf_np [⟨"P1", 0, 7, 0⟩, ⟨"P2", 2, 4, 0⟩, ⟨"P3", 4, 1, 0⟩] =
      [⟨"P1", 0, 7⟩, ⟨"P3", 7, 8⟩, ⟨"P2", 8, 12⟩] := by
  constructor
  · intro key x xs
    obtain ⟨p, hp⟩ : ∃ p, pyMin key (x :: xs) = some p := ⟨_, rfl⟩
    obtain ⟨h1, h2, h3⟩ := pyMin_spec hp
    exact ⟨p, hp, h1, h2, h3⟩
  · rfl

/-- C6 counterexample: the discipline value `"RoundRobin"` (as the spec
spells it) is not recognized — the dispatcher fails with the
unknown-algorithm condition instead of routing to the Round Robin
builder. -/
theorem claim_C6_counterexample :
    run_scheduler [⟨"P1", 0, 5, 0⟩] "RoundRobin" (some 2) =
      .error .valueErrorUnknownAlgo := rfl

/-- C6 amended: the dispatcher recognizes exactly the discipline values
`"FCFS"`, `"SJF"`, `"Priority"` and `"Round Robin"` (with a space, not
`RoundRobin`), routes each to the corresponding builder followed by the
metrics calculator, and fails with the unknown-algorithm condition for
every other value. -/
theorem claim_C6_amended (ps : List Process) (quantum : Option Int) :
    (∀ algo : String, algo ∉ ["FCFS", "SJF", "Priority", "Round Robin"] →
      run_scheduler ps algo quantum = .error .valueErrorUnknownAlgo) ∧
    run_scheduler ps "FCFS" quantum =
      (compute_metrics ps (simulate_fcfs ps)).map
        (fun ms => (simulate_fcfs ps, ms.1, ms.2)) ∧
    run_scheduler ps "SJF" quantum =
      (compute_metrics ps (simulate_sjf_np ps)).map
        (fun ms => (simulate_sjf_np ps, ms.1, ms.2)) ∧
    run_scheduler ps "Priority" quantum =
      (compute_metrics ps (simulate_priority_np ps)).map
        (fun ms => (simulate_priority_np ps, ms.1, ms.2)) ∧
    run_scheduler ps "Round Robin" quantum =
      (simulate_rr ps quantum).bind
        (fun g => (compute_metrics ps g).map (fun ms => (g, ms.1, ms.2))) := by
  refine ⟨?_, ?_, ?_, ?_, ?_⟩
  · intro algo halgo
    simp only [List.mem_cons, List.not_mem_nil, or_false, not_or] at halgo
    obtain ⟨h1, h2, h3, h4⟩ := halgo
    rw [run_scheduler]
    rw [if_neg h1, if_neg h2, if_neg h3, if_neg h4]
  · rw [run_scheduler]
    rw [if_pos rfl]
    dsimp only
    cases hcm : compute_metrics ps (simulate_fcfs ps) with
    | error e => rfl
    | ok ms => rfl
  · rw [run_scheduler]
    rw [if_neg (by decide), if_pos rfl]
    dsimp only
    cases hcm : compute_metrics ps (simulate_sjf_np ps) with
    | error e => rfl
    | ok ms => rfl
  · rw [run_scheduler]
    rw [if_neg (by decide), if_neg (by decide), if_pos rfl]
    dsimp only
    cases hcm : compute_metrics ps (simulate_priority_np ps) with
    | error e => rfl
    | ok ms => rfl
  · rw [run_scheduler]
    rw [if_neg (by decide), if_neg (by decide), if_neg (by decide), if_pos rfl]
    cases hs : simulate_rr ps quantum with
    | error e => rfl
    | ok g =>
      dsimp only [Except.bind]
      cases hcm : compute_metrics ps g with
      | error e => rfl
      | ok ms => rfl

/-- Witness for C6 (amended) at a concrete unrecognized discipline. -/
theorem claim_C6_witness :
    ("LIFO" ∉ ["FCFS", "SJF", "Priority", "Round Robin"]) ∧
      run_scheduler [] "LIFO" none = .error .valueErrorUnknownAlgo :=
  ⟨by decide, (claim_C6_amended [] none).1 "LIFO" (by decide)⟩

/-- C7 counterexample: with the quantum absent, the Round Robin builder
fails with the `TypeError` raised by comparing `None` with 0 — not with
the quantum `ValueError` (the InvalidParameter condition). -/
theorem claim_C7_counterexample :
    simulate_rr [] none = .error .typeErrorNoneOrder ∧
      simulate_rr [] none ≠ .error .valueErrorQuantum := by
  refine ⟨rfl, ?_⟩
  intro h
  rw [show simulate_rr [] none = .error .typeErrorNoneOrder from rfl] at h
  injection h with h'
  exact PyError.noConfusion h'

/-- C7 amended: building a Round Robin timeline with the quantum absent
fails with the `None`-comparison type error, and with a present quantum
≤ 0 fails with the quantum `ValueError` (InvalidParameter); in both
cases no partial Timeline is produced (the failure is the whole
result). -/
theorem claim_C7_amended (ps : List Process) :
    simulate_rr ps none = .error .typeErrorNoneOrder ∧
      (∀ v : Int, v ≤ 0 → simulate_rr ps (some v) = .error .valueErrorQuantum) ∧
      run_scheduler ps "Round Robin" none = .error .typeErrorNoneOrder ∧
      (∀ v : Int, v ≤ 0 →
        run_scheduler ps "Round Robin" (some v) = .error .valueErrorQuantum) := by
  have hrr : ∀ v : Int, v ≤ 0 → simulate_rr ps (some v) = .error .valueErrorQuantum := by
    intro v hv
    rw [simulate_rr]
    rw [if_pos hv]
  refine ⟨rfl, hrr, ?_, ?_⟩
  · rw [run_scheduler]
    rw [if_neg (by decide), if_neg (by decide), if_neg (by decide), if_pos rfl]
    rfl
  · intro v hv
    rw [run_scheduler]
    rw [if_neg (by decide), if_neg (by decide), if_neg (by decide), if_pos rfl]
    rw [hrr v hv]

/-- Witness for C7 (amended) at a concrete non-positive quantum. -/
theorem claim_C7_witness :
    ((0 : Int) ≤ 0) ∧ simulate_rr [] (some 0) = .error .valueErrorQuantum :=
  ⟨by decide, (claim_C7_amended []).2.1 0 (by decide)⟩

/-- C8 counterexample: compute invoked with the empty process set
crashes with the division-by-zero condition while averaging — it
neither fails with a defined EmptyInput condition nor returns a
zero-valued summary. -/
theorem claim_C8_counterexample :
    compute_metrics [] [] = .error .zeroDivisionError := rfl

/-- C8 amended: compute on an empty process set always fails with the
division-by-zero condition raised while averaging (there is no
EmptyInput condition and no zero-valued summary); for a non-empty
process set with an empty Timeline, the summary's makespan
(total time) is 0. -/
theorem claim_C8_amended :
    (∀ gantt : List Block, compute_metrics [] gantt = .error .zeroDivisionError) ∧
      (∀ ps : List Process, ps ≠ [] →
        ∃ m s, compute_metrics ps [] = .ok (m, s) ∧ s.total_time = 0) := by
  constructor
  · intro gantt
    rfl
  · intro ps hne
    obtain ⟨s, hcm, hts⟩ := compute_metrics_ok [] hne
    exact ⟨_, s, hcm, hts⟩

/-- Witness for C8 (amended) at a concrete non-empty process set. -/
theorem claim_C8_witness :
    (([⟨"P1", 0, 2, 0⟩] : List Process) ≠ []) ∧
      ∃ m s, compute_metrics [⟨"P1", 0, 2, 0⟩] [] = .ok (m, s) ∧ s.total_time = 0 :=
  ⟨by decide, claim_C8_amended.2 [⟨"P1", 0, 2, 0⟩] (by decide)⟩

/-- C3: for every non-empty valid process set and every chained
Timeline, compute succeeds and returns per-process metrics where CT is
the maximum end tick among the process's non-IDLE intervals, TAT = CT −
arrival, WT = TAT − burst, RT is the minimum start tick among the
process's intervals minus arrival, and RT defaults to 0 for a process
with zero intervals. -/
theorem claim_C3_metrics (ps : List Process) (gantt : List Block)
    (hne : ps ≠ []) (hv : ValidProcs ps) (hch : Chained 0 gantt) :
    ∃ m s, compute_metrics ps gantt = .ok (m, s) ∧
      ∀ p ∈ ps, ∃ M : Metrics, List.lookup p.pid m = some M ∧
        (ownedBlocks p.pid gantt ≠ [] →
          M.CT ∈ (ownedBlocks p.pid gantt).map (fun b => b.stop) ∧
            ∀ e ∈ (ownedBlocks p.pid gantt).map (fun b => b.stop), e ≤ M.CT) ∧
        M.TAT = M.CT - p.arrival ∧
        M.WT = M.TAT - p.burst ∧
        (ownedBlocks p.pid gantt ≠ [] →
          ∃ s0 ∈ (ownedBlocks p.pid gantt).map (fun b => b.start),
            M.RT = s0 - p.arrival ∧
              ∀ s1 ∈ (ownedBlocks p.pid gantt).map (fun b => b.start), s0 ≤ s1) ∧
        (ownedBlocks p.pid gantt = [] → M.RT = 0) := by
  obtain ⟨s, hcm, _⟩ := compute_metrics_ok gantt hne
  refine ⟨_, s, hcm, ?_⟩
  intro p hp
  have harr : pidDict (fun x => x.arrival) ps p.pid = p.arrival := pidDict_eq hp hv.2
  have hbur : pidDict (fun x => x.burst) ps p.pid = p.burst := pidDict_eq hp hv.2
  have hct : (metricsFor (pidDict (fun x => x.arrival) ps) (pidDict (fun x => x.burst) ps)
      gantt p.pid).CT = ((ownedBlocks p.pid gantt).map (fun b => b.stop)).foldl max 0 :=
    completionOf_eq p.pid gantt 0
  have hstop_pos : ∀ e ∈ (ownedBlocks p.pid gantt).map (fun b => b.stop), 0 < e := by
    intro e he
    obtain ⟨bb, hbb, rfl⟩ := List.mem_map.mp he
    have hbg : bb ∈ gantt := List.mem_of_mem_filter hbb
    have := chained_mem hch bb hbg
    omega
  refine ⟨metricsFor (pidDict (fun x => x.arrival) ps) (pidDict (fun x => x.burst) ps)
      gantt p.pid, lookup_map_pid hp _, ?_, ?_, ?_, ?_, ?_⟩
  · intro hneB
    rw [hct]
    obtain ⟨h0, hall, hor⟩ :=
      foldl_max_spec ((ownedBlocks p.pid gantt).map (fun b => b.stop)) 0
    rcases hor with heq0 | hmem
    · exfalso
      obtain ⟨b0, hb0⟩ := List.exists_mem_of_ne_nil _ hneB
      have h1 := hall b0.stop (List.mem_map_of_mem _ hb0)
      have h2 := hstop_pos b0.stop (List.mem_map_of_mem _ hb0)
      omega
    · exact ⟨hmem, hall⟩
  · show (metricsFor _ _ gantt p.pid).TAT = (metricsFor _ _ gantt p.pid).CT - p.arrival
    rw [metricsFor]
    dsimp only
    rw [harr]
  · show (metricsFor _ _ gantt p.pid).WT = (metricsFor _ _ gantt p.pid).TAT - p.burst
    rw [metricsFor]
    dsimp only
    rw [hbur]
  · intro hneB
    have hfse := firstStartOf_eq p.pid gantt
    cases hmap : (ownedBlocks p.pid gantt).map (fun bb => bb.start) with
    | nil =>
      exfalso
      exact hneB (List.map_eq_nil_iff.mp hmap)
    | cons s0 ss =>
      rw [hmap] at hfse
      obtain ⟨hle, hall, hor⟩ := foldl_min_spec ss s0
      refine ⟨ss.foldl min s0, ?_, ?_, ?_⟩
      · rcases hor with heq | hmem
        · rw [heq]
          exact List.mem_cons_self _ _
        · exact List.mem_cons_of_mem _ hmem
      · show (metricsFor _ _ gantt p.pid).RT = ss.foldl min s0 - p.arrival
        rw [metricsFor]
        dsimp only
        rw [hfse, harr]
      · intro s1 hs1
        rcases List.mem_cons.mp hs1 with rfl | hs1
        · exact hle
        · exact hall s1 hs1
  · intro hB
    have hfs0 : firstStartOf p.pid gantt = none := by
      rw [firstStartOf_eq p.pid gantt, hB]
      rfl
    show (metricsFor _ _ gantt p.pid).RT = 0
    rw [metricsFor]
    dsimp only
    rw [hfs0]

/-- Witness for C3 at a concrete process set and produced timeline. -/
theorem claim_C3_witness :
    (([⟨"P1", 0, 5, 0⟩] : List Process) ≠ [] ∧ ValidProcs [⟨"P1", 0, 5, 0⟩] ∧
        Chained 0 [⟨"P1", 0, 5⟩]) ∧
      ∃ m s, compute_metrics [⟨"P1", 0, 5, 0⟩] [⟨"P1", 0, 5⟩] = .ok (m, s) ∧
        ∀ p ∈ ([⟨"P1", 0, 5, 0⟩] : List Process), ∃ M : Metrics,
          List.lookup p.pid m = some M ∧
          (ownedBlocks p.pid [⟨"P1", 0, 5⟩] ≠ [] →
            M.CT ∈ (ownedBlocks p.pid [⟨"P1", 0, 5⟩]).map (fun b => b.stop) ∧
              ∀ e ∈ (ownedBlocks p.pid [⟨"P1", 0, 5⟩]).map (fun b => b.stop), e ≤ M.CT) ∧
          M.TAT = M.CT - p.arrival ∧
          M.WT = M.TAT - p.burst ∧
          (ownedBlocks p.pid [⟨"P1", 0, 5⟩] ≠ [] →
            ∃ s0 ∈ (ownedBlocks p.pid [⟨"P1", 0, 5⟩]).map (fun b => b.start),
              M.RT = s0 - p.arrival ∧
                ∀ s1 ∈ (ownedBlocks p.pid [⟨"P1", 0, 5⟩]).map (fun b => b.start), s0 ≤ s1) ∧
          (ownedBlocks p.pid [⟨"P1", 0, 5⟩] = [] → M.RT = 0) :=
  ⟨⟨by decide, by unfold ValidProcs; decide, ⟨rfl, by decide, trivial⟩⟩,
    claim_C3_metrics [⟨"P1", 0, 5, 0⟩] [⟨"P1", 0, 5⟩] (by decide)
      (by unfold ValidProcs; decide) ⟨rfl, by decide, trivial⟩⟩

/-- For a single submitted process with arrival 0 and any timeline that
is chained from 0, fully owned by it, and of total width equal to its
burst, `compute_metrics` yields the record CT = b, TAT = b, WT = 0,
RT = 0. -/
theorem compute_metrics_single {pid : String} {b pr : Int} {g : List Block}
    (hpid : pid ≠ "IDLE") (hb : 0 < b)
    (hch : Chained 0 g) (hw : ownedWidth pid g = b)
    (hall : ∀ blk ∈ g, blk.pid = pid) :
    ∃ m s, compute_metrics [⟨pid, 0, b, pr⟩] g = .ok (m, s) ∧
      List.lookup pid m = some ⟨b, b, 0, 0⟩ := by
  have howned : ownedBlocks pid g = g := by
    rw [ownedBlocks]
    apply List.filter_eq_self.mpr
    intro blk hblk
    simp [hall blk hblk, hpid]
  have hgne : g ≠ [] := by
    intro h
    rw [h, ownedWidth_nil] at hw
    omega
  have hms : makespan g = b := by
    rw [chained_makespan hch hgne]
    have hsum : (g.map (fun blk => blk.stop - blk.start)).sum = ownedWidth pid g := by
      rw [ownedWidth, howned]
    omega
  have hctb : ((ownedBlocks pid g).map (fun blk => blk.stop)).foldl max 0 = b := by
    obtain ⟨h0, hallmax, hor⟩ :=
      foldl_max_spec ((ownedBlocks pid g).map (fun blk => blk.stop)) 0
    obtain ⟨bl, hbl, hblms⟩ := makespan_mem_stop hgne
    have h1 : bl.stop ≤ ((ownedBlocks pid g).map (fun blk => blk.stop)).foldl max 0 := by
      apply hallmax
      rw [howned]
      exact List.mem_map_of_mem _ hbl
    rcases hor with heq | hmem
    · omega
    · obtain ⟨bc, hbc, hbceq⟩ := List.mem_map.mp hmem
      rw [howned] at hbc
      have h2 := chained_stop_le_makespan hch bc hbc
      omega
  have hct : completionOf pid g = b := (completionOf_eq pid g 0).trans hctb
  have hfs : firstStartOf pid g = some 0 := by
    cases g with
    | nil => exact absurd rfl hgne
    | cons bh gt =>
      have hbh0 : bh.start = 0 := hch.1
      rw [firstStartOf_eq, howned, List.map_cons]
      show some ((gt.map (fun blk => blk.start)).foldl min bh.start) = some 0
      congr 1
      obtain ⟨hle, hallmin, hor⟩ := foldl_min_spec (gt.map (fun blk => blk.start)) bh.start
      have hge : 0 ≤ (gt.map (fun blk => blk.start)).foldl min bh.start := by
        rcases hor with heq | hmem
        · omega
        · obtain ⟨bc, hbc, hbceq⟩ := List.mem_map.mp hmem
          have := chained_mem hch bc (List.mem_cons_of_mem _ hbc)
          omega
      omega
  have harr : pidDict (fun x => x.arrival) [⟨pid, 0, b, pr⟩] pid = 0 := by
    simp [pidDict]
  have hbur : pidDict (fun x => x.burst) [⟨pid, 0, b, pr⟩] pid = b := by
    simp [pidDict]
  have hM : metricsFor (pidDict (fun x => x.arrival) [⟨pid, 0, b, pr⟩])
      (pidDict (fun x => x.burst) [⟨pid, 0, b, pr⟩]) g pid = ⟨b, b, 0, 0⟩ := by
    rw [metricsFor]
    rw [hct, hfs, harr, hbur]
    simp
  obtain ⟨s, hcm, _⟩ :=
    @compute_metrics_ok [⟨pid, 0, b, pr⟩] g (by simp)
  refine ⟨_, s, hcm, ?_⟩
  have hlk := lookup_map_pid (List.mem_singleton_self (⟨pid, 0, b, pr⟩ : Process))
    (fun s => metricsFor (pidDict (fun x => x.arrival) [⟨pid, 0, b, pr⟩])
      (pidDict (fun x => x.burst) [⟨pid, 0, b, pr⟩]) g s)
  exact hlk.trans (congrArg some hM)

/-- Round Robin on a single process with arrival 0: the run succeeds
and every produced block is owned by that process, with total width
equal to its burst. -/
theorem simulate_rr_single {pid : String} {b pr q : Int}
    (hb : 0 < b) (hq : 0 < q) (hpid : pid ≠ "IDLE") :
    ∃ g, simulate_rr [⟨pid, 0, b, pr⟩] (some q) = .ok g ∧ Chained 0 g ∧
      ownedWidth pid g = b ∧ ∀ blk ∈ g, blk.pid = pid := by
  rw [simulate_rr, if_neg (by omega : ¬ q ≤ 0)]
  dsimp only
  have hsort : sortByArrival [⟨pid, 0, b, pr⟩] = [⟨pid, 0, b, pr⟩] := rfl
  rw [hsort]
  have heq2 : addArrivals 0 [] [(⟨pid, 0, b, pr⟩ : Process)] = ([⟨pid, 0, b, pr⟩], []) := rfl
  rw [heq2]
  dsimp only
  have hpos : ∀ x ∈ [(⟨pid, 0, b, pr⟩ : Process)] ++ [],
      0 < pidDict (fun p => p.burst) [(⟨pid, 0, b, pr⟩ : Process)] x.pid := by
    intro x hx
    simp only [List.append_nil, List.mem_singleton] at hx
    subst hx
    simpa [pidDict] using hb
  have hnd : (([(⟨pid, 0, b, pr⟩ : Process)] ++ []).map Process.pid).Nodup := by simp
  obtain ⟨g, haux⟩ := rrAux_isSome hq
    (rrFuel [⟨pid, 0, b, pr⟩] [] (pidDict (fun p => p.burst) [⟨pid, 0, b, pr⟩]))
    [⟨pid, 0, b, pr⟩] [] (pidDict (fun p => p.burst) [⟨pid, 0, b, pr⟩]) 0 hpos hnd
    (Nat.lt_succ_self _)
  rw [haux]
  refine ⟨g, rfl, ?_, ?_, ?_⟩
  · exact rrAux_chained hq _ _ _ _ _ g hpos hnd (fun y l' h => by cases h) haux
  · rw [rrAux_width hq hpid _ _ _ _ _ g hpos hnd haux]
    rw [if_pos (by simp)]
    simp [pidDict]
  · intro blk hblk
    have := rrAux_pids _ _ _ _ _ haux blk hblk
    simpa using this

/-- C10 counterexample: under the Round Robin discipline a single
process with arrival 0 and burst 5, quantum 2, produces a Timeline of
three intervals, not exactly one. -/
theorem claim_C10_counterexample :
    simulate_rr [⟨"P1", 0, 5, 0⟩] (some 2) =
        .ok [⟨"P1", 0, 2⟩, ⟨"P1", 2, 4⟩, ⟨"P1", 4, 5⟩] ∧
      ([⟨"P1", 0, 2⟩, ⟨"P1", 2, 4⟩, ⟨"P1", 4, 5⟩] : List Block).length ≠ 1 :=
  ⟨rfl, by decide⟩

/-- C10 amended: a single process with arrival 0 and burst b > 0
produces a Timeline of exactly one interval under FCFS, SJF and
Priority, and under Round Robin a non-empty Timeline all of whose
intervals are owned by that process; under every discipline its metrics
satisfy CT = b, TAT = b, WT = 0, RT = 0. -/
theorem claim_C10_single_process (pid : String) (b pr : Int)
    (hb : 0 < b) (hpid : pid ≠ "IDLE") :
    simulate_fcfs [⟨pid, 0, b, pr⟩] = [⟨pid, 0, b⟩] ∧
      simulate_sjf_np [⟨pid, 0, b, pr⟩] = [⟨pid, 0, b⟩] ∧
      simulate_priority_np [⟨pid, 0, b, pr⟩] = [⟨pid, 0, b⟩] ∧
      (∃ m s, compute_metrics [⟨pid, 0, b, pr⟩] [⟨pid, 0, b⟩] = .ok (m, s) ∧
        List.lookup pid m = some ⟨b, b, 0, 0⟩) ∧
      ∀ q : Int, 0 < q → ∃ g, simulate_rr [⟨pid, 0, b, pr⟩] (some q) = .ok g ∧
        g ≠ [] ∧ (∀ blk ∈ g, blk.pid = pid) ∧
        ∃ m s, compute_metrics [⟨pid, 0, b, pr⟩] g = .ok (m, s) ∧
          List.lookup pid m = some ⟨b, b, 0, 0⟩ := by
  have hch1 : Chained 0 [(⟨pid, 0, b⟩ : Block)] := ⟨rfl, hb, trivial⟩
  have hw1 : ownedWidth pid [(⟨pid, 0, b⟩ : Block)] = b := by
    rw [ownedWidth_cons, ownedWidth_nil, if_pos ⟨hpid, rfl⟩]
    show b - 0 + 0 = b
    omega
  refine ⟨?_, ?_, ?_, ?_, ?_⟩
  · simp [simulate_fcfs, sortByArrival, insertByArrival, fcfsAux]
  · simp [simulate_sjf_np, sortByArrival, insertByArrival, sjfAux, pyMin, removeFirst]
  · simp [simulate_priority_np, sortByArrival, insertByArrival, prioAux, pyMinPrioArr,
      removeFirst]
  · exact compute_metrics_single hpid hb hch1 hw1
      (by intro blk hblk; rcases List.mem_singleton.mp hblk with rfl; rfl)
  · intro q hq
    obtain ⟨g, hg, hch, hw, hown⟩ := @simulate_rr_single pid b pr q hb hq hpid
    refine ⟨g, hg, ?_, hown, compute_metrics_single hpid hb hch hw hown⟩
    intro h
    rw [h, ownedWidth_nil] at hw
    omega

/-- Witness for C10 (amended) at a concrete pid and burst. -/
theorem claim_C10_witness :
    ((0 : Int) < 5 ∧ ("P1" : String) ≠ "IDLE") ∧
      (simulate_fcfs [⟨"P1", 0, 5, 7⟩] = [⟨"P1", 0, 5⟩] ∧
        simulate_sjf_np [⟨"P1", 0, 5, 7⟩] = [⟨"P1", 0, 5⟩] ∧
        simulate_priority_np [⟨"P1", 0, 5, 7⟩] = [⟨"P1", 0, 5⟩] ∧
        (∃ m s, compute_metrics [⟨"P1", 0, 5, 7⟩] [⟨"P1", 0, 5⟩] = .ok (m, s) ∧
          List.lookup "P1" m = some ⟨5, 5, 0, 0⟩) ∧
        ∀ q : Int, 0 < q → ∃ g, simulate_rr [⟨"P1", 0, 5, 7⟩] (some q) = .ok g ∧
          g ≠ [] ∧ (∀ blk ∈ g, blk.pid = "P1") ∧
          ∃ m s, compute_metrics [⟨"P1", 0, 5, 7⟩] g = .ok (m, s) ∧
            List.lookup "P1" m = some ⟨5, 5, 0, 0⟩) :=
  ⟨⟨by decide, by decide⟩, claim_C10_single_process "P1" 5 7 (by decide) (by decide)⟩

end CpuSched
